import Mathlib

/-!
Verification of the traversal-and-interaction engine of the hmtlparse
repository (a pyppeteer/selenium based BFS crawler with URL normalization,
global-navigation-link detection, a per-page form-interaction loop and a
button-to-input association resolver).

The development shallowly embeds the Python sources:
* the URL normalizer and domain filter built on urllib.parse
  (normalize_url and in_domain of infinite_scroll_crawler_links_butt.py and
  crawl_button.py);
* the BFS crawl loops of both crawlers (frontier, visited set, page budget,
  link-frequency table and global-link set);
* the per-page form-interaction loop process_form_chain of crawl_button.py;
* the input-control association resolvers collect_related_input_ids of
  crawl_indigo_buttons.py and find_associated_inputs of selenium_crawl.py.

Machine strings are modelled as List Char; the browser, the network and the
mock-value oracle are modelled as explicit function parameters.
-/

/-! ## Model of urllib.parse (CPython 3.11) as used by the sources

The sources call urlparse, urlunparse and urljoin from urllib.parse.  The
functions below embed the CPython 3.11 implementation of urlsplit,
urlunsplit, urlparse and urlunparse, restricted as follows: bracketed
(IPv6 / IPvFuture) authorities, which CPython validates with the ipaddress
module, are modelled as unparsable (the parse returns none), and the NFKC
check of _checknetloc, a no-op on ASCII authorities, is modelled as a no-op.
A failure value none corresponds to urlparse raising ValueError.
-/

abbrev Chars := List Char

/-- The single-quote character, written via its code point. -/
def squote : Char := Char.ofNat 39

/-- The double-quote character, written via its code point. -/
def dquote : Char := Char.ofNat 34

/-- scheme_chars of urllib.parse: letters, digits and "+-.". -/
def schemeChars : Chars :=
  ("abcdefghijklmnopqrstuvwxyzABCDEFGHIJKLMNOPQRSTUVWXYZ0123456789+-.").toList

/-- uses_params of urllib.parse (schemes whose path carries ;-parameters). -/
def usesParams : List Chars :=
  ["", "ftp", "hdl", "prospero", "http", "imap", "https", "shttp", "rtsp",
   "rtsps", "rtspu", "sip", "sips", "mms", "sftp", "tel"].map String.toList

/-- uses_netloc of urllib.parse (schemes that use a network location). -/
def usesNetloc : List Chars :=
  ["", "ftp", "http", "gopher", "nntp", "telnet", "imap", "wais", "file",
   "mms", "https", "shttp", "snews", "prospero", "rtsp", "rtsps", "rtspu",
   "rsync", "svn", "svn+ssh", "sftp", "nfs", "git", "git+ssh", "ws",
   "wss"].map String.toList

/-- Membership in _WHATWG_C0_CONTROL_OR_SPACE: code points 0x00 to 0x20. -/
def isC0OrSpace (c : Char) : Bool := c.toNat ≤ 0x20

/-- Membership in _UNSAFE_URL_BYTES_TO_REMOVE: tab, CR and LF. -/
def isUnsafeByte (c : Char) : Bool := c == '\t' || c == '\r' || c == '\n'

/-- The sanitation urlsplit performs first: lstrip of C0-control-or-space,
then removal of every tab, CR and LF. -/
def sanitize (url : Chars) : Chars :=
  (url.dropWhile isC0OrSpace).filter (fun c => !isUnsafeByte c)

/-- Split a list around the first element satisfying p, dropping that
element; none when no element satisfies p.  This is the model of
str.split(sep, 1) and of str.find followed by slicing. -/
def splitFirst (p : Char → Bool) : Chars → Option (Chars × Chars)
  | [] => none
  | c :: cs =>
    if p c then some ([], cs)
    else (splitFirst p cs).map (fun ab => (c :: ab.1, ab.2))

/-- Split a list around the last element satisfying p (model of str.rfind
followed by a forward str.find). -/
def splitLast (p : Char → Bool) (l : Chars) : Option (Chars × Chars) :=
  (splitFirst p l.reverse).map (fun ab => (ab.2.reverse, ab.1.reverse))

/-- Delimiters ending the network-location part ('/', '?' and '#'). -/
def netlocDelim (c : Char) : Bool := c == '/' || c == '?' || c == '#'

/-- Model of _splitnetloc applied after the leading "//" has been dropped:
the netloc is everything up to the first '/', '?' or '#'. -/
def splitnetloc (url : Chars) : Chars × Chars :=
  (url.takeWhile (fun c => !netlocDelim c), url.dropWhile (fun c => !netlocDelim c))

/-- Scheme extraction of urlsplit: the text before the first ':' is a
scheme when it is nonempty, starts with an ASCII letter and consists of
scheme characters only; it is then lowercased. -/
def splitScheme (url : Chars) : Chars × Chars :=
  match splitFirst (fun c => c == ':') url with
  | some (pre, rest) =>
    if !pre.isEmpty && (pre.headD ' ').isAlpha && pre.all (fun c => schemeChars.contains c) then
      (pre.map Char.toLower, rest)
    else ([], url)
  | none => ([], url)

/-- Result of urlsplit: scheme, netloc, path, query, fragment. -/
structure SplitResult where
  scheme : Chars
  netloc : Chars
  path : Chars
  query : Chars
  fragment : Chars
deriving DecidableEq, Repr

/-- Result of urlparse: urlsplit plus the ;-parameters of the last path
segment. -/
structure ParseResult where
  scheme : Chars
  netloc : Chars
  path : Chars
  params : Chars
  query : Chars
  fragment : Chars
deriving DecidableEq, Repr

/-- The netloc stage of urlsplit: when the remainder starts with "//",
split the netloc off at the first '/', '?' or '#'. -/
def netlocStage (url : Chars) : Chars × Chars :=
  if url.take 2 = ['/', '/'] then splitnetloc (url.drop 2) else ([], url)

/-- The fragment stage of urlsplit: url.split('#', 1) when '#' occurs. -/
def fragSplit (url : Chars) : Chars × Chars :=
  match splitFirst (fun c => c == '#') url with
  | some ab => ab
  | none => (url, [])

/-- The query stage of urlsplit: url.split('?', 1) when '?' occurs. -/
def querySplit (url : Chars) : Chars × Chars :=
  match splitFirst (fun c => c == '?') url with
  | some ab => ab
  | none => (url, [])

/-- Model of urlsplit.  Returns none where CPython raises ValueError; any
bracket in the netloc is conservatively treated as unparsable (CPython
accepts only valid bracketed IP hosts there, validated with the ipaddress
module, which is outside this model). -/
def urlsplit (url0 : Chars) : Option SplitResult :=
  let url1 := sanitize url0
  let su := splitScheme url1
  let nu := netlocStage su.2
  if nu.1.contains '[' || nu.1.contains ']' then none
  else
    let uf := fragSplit nu.2
    let pq := querySplit uf.1
    some { scheme := su.1, netloc := nu.1, path := pq.1,
           query := pq.2, fragment := uf.2 }

/-- Model of _splitparams: split the ;-parameters off the last path
segment.  In the source it is only invoked when the path contains ';'. -/
def splitparams (url : Chars) : Chars × Chars :=
  if url.contains '/' then
    match splitLast (fun c => c == '/') url with
    | some ab =>
      match splitFirst (fun c => c == ';') ab.2 with
      | some bc => (ab.1 ++ '/' :: bc.1, bc.2)
      | none => (url, [])
    | none => (url, [])
  else
    match splitFirst (fun c => c == ';') url with
    | some bc => (bc.1, bc.2)
    | none => (url, [])

/-- Model of urlparse: urlsplit, then params extraction when the scheme
uses params and the path contains ';'. -/
def urlparse (url : Chars) : Option ParseResult :=
  (urlsplit url).map (fun s =>
    if usesParams.contains s.scheme && s.path.contains ';' then
      let pp := splitparams s.path
      { scheme := s.scheme, netloc := s.netloc, path := pp.1,
        params := pp.2, query := s.query, fragment := s.fragment }
    else
      { scheme := s.scheme, netloc := s.netloc, path := s.path,
        params := [], query := s.query, fragment := s.fragment })

/-- Model of urlunsplit (CPython 3.11): the "//" and netloc are emitted
when the netloc is nonempty, or when the scheme uses a netloc and the path
does not already start with "//". -/
def urlunsplit (s : SplitResult) : Chars :=
  let url0 := s.path
  let url1 :=
    if !s.netloc.isEmpty ||
       (!s.scheme.isEmpty && usesNetloc.contains s.scheme && s.path.take 2 ≠ ['/', '/']) then
      let u := if !url0.isEmpty && url0.headD '/' ≠ '/' then '/' :: url0 else url0
      '/' :: '/' :: (s.netloc ++ u)
    else url0
  let url2 := if !s.scheme.isEmpty then s.scheme ++ ':' :: url1 else url1
  let url3 := if !s.query.isEmpty then url2 ++ '?' :: s.query else url2
  if !s.fragment.isEmpty then url3 ++ '#' :: s.fragment else url3

/-- Model of urlunparse: re-attach the params with ';' and unsplit. -/
def urlunparse (p : ParseResult) : Chars :=
  let url := if !p.params.isEmpty then p.path ++ ';' :: p.params else p.path
  urlunsplit { scheme := p.scheme, netloc := p.netloc, path := url,
               query := p.query, fragment := p.fragment }

/-- Remove every trailing '/' (model of path.rstrip("/")). -/
def rstripSlashes (l : Chars) : Chars :=
  (l.reverse.dropWhile (fun c => c == '/')).reverse

/-- The path adjustment of normalize_url: strip trailing slashes unless
the path is exactly "/" (or does not end with '/'). -/
def normPath (path : Chars) : Chars :=
  if path.getLastD ' ' == '/' && path ≠ ['/'] then rstripSlashes path else path

/-- Model of normalize_url of infinite_scroll_crawler_links_butt.py: parse,
drop the fragment, strip trailing slashes of the path unless it is "/",
reassemble.  none models the uncaught ValueError of urlparse. -/
def normalize_url (raw : Chars) : Option Chars :=
  (urlparse raw).map (fun p =>
    urlunparse { scheme := p.scheme, netloc := p.netloc, path := normPath p.path,
                 params := p.params, query := p.query, fragment := [] })

/-! ## Model of the two in_domain variants -/

namespace InfiniteScroll

/-- Model of in_domain of infinite_scroll_crawler_links_butt.py: true iff
the parsed netloc is empty or equals home_netloc.  none models the
uncaught ValueError of urlparse. -/
def in_domain (link : Chars) (home_netloc : Chars) : Option Bool :=
  (urlparse link).map (fun p => p.netloc.isEmpty || p.netloc == home_netloc)

end InfiniteScroll

namespace CrawlButton

/-- Model of the attribute access parsed.origin in in_domain of
crawl_button.py.  The urllib.parse ParseResult type has no attribute named
origin, so the access raises AttributeError on every value; the lookup is
therefore modelled as the constant none. -/
def parseResultOrigin (_p : ParseResult) : Option Chars := none

/-- Model of in_domain of crawl_button.py: it evaluates
urlparse(link).origin == urlparse(base_origin).origin under a bare except
returning False.  Since the origin attribute does not exist, the
comparison always raises and the function always returns false. -/
def in_domain (link : Chars) (base_origin : Chars) : Bool :=
  match (urlparse link).bind parseResultOrigin,
        (urlparse base_origin).bind parseResultOrigin with
  | some o1, some o2 => o1 == o2
  | _, _ => false

end CrawlButton

/-! ## Model of the per-page form-interaction loop (process_form_chain of
crawl_button.py)

A page is modelled by its list of forms in document order; each form by its
input controls and buttons in document order.  The trace of driver calls of
one run is recorded as a list of actions.

Crucial embedded fact: the CLICK step of the source evaluates
page.waitForNavigation({...}).catch(lambda _: None) as the first argument
of asyncio.gather.  Python coroutine objects have no attribute named catch,
so this attribute access raises AttributeError before btn.click() is
evaluated; the surrounding bare except swallows the error.  The evaluation
of that argument is modelled by waitForNavigationCatch below.
-/

structure InputField where
  nameAttr : String
  idAttr : String
  placeholder : String
  typeAttr : String
deriving DecidableEq, Repr

structure FormButton where
  label : String
deriving DecidableEq, Repr

structure Form where
  inputs : List InputField
  buttons : List FormButton
deriving DecidableEq, Repr

structure FPage where
  forms : List Form
deriving DecidableEq, Repr

/-- One driver-level action of the form-interaction loop. -/
inductive FAction where
  | fill (i : InputField) (value : String)
  | screenshot (label : String)
  | highlight (b : FormButton)
  | clickButton (b : FormButton)
  | removeOutline (b : FormButton)
deriving DecidableEq, Repr

/-- Result of evaluating a Python expression: a value or a raised
exception. -/
inductive PyResult (α : Type) where
  | ok (a : α)
  | exn
deriving DecidableEq, Repr

/-- Model of evaluating page.waitForNavigation({...}).catch(lambda _: None):
the coroutine returned by waitForNavigation has no catch attribute, so the
evaluation raises AttributeError. -/
def waitForNavigationCatch : PyResult Unit := PyResult.exn

/-- A form qualifies when it contains at least one input and one button
(the condition if inputs and buttons of the source). -/
def qualifies (f : Form) : Bool := !f.inputs.isEmpty && !f.buttons.isEmpty

/-- The SCAN query: the first form in document order containing at least
one input and one button (the for form in forms loop with break). -/
def scanForm (p : FPage) : Option Form :=
  p.forms.find? qualifies

/-- Model of generate_mock_value: ask the oracle, fall back to the literal
"test" on any failure. -/
def generate_mock_value (oracle : InputField → Option String) (f : InputField) : String :=
  (oracle f).getD "test"

/-- The first button of a form (buttons[0] in the source; scanForm
guarantees the list is nonempty when this is used). -/
def firstButton (f : Form) : FormButton := f.buttons.headD { label := "" }

/-- The CLICK step: asyncio.gather evaluates its first argument
waitForNavigation(...).catch(...), which raises AttributeError; the bare
except catches it, so btn.click() is never evaluated and no click action
is emitted.  The ok branch records what a successful evaluation would have
done. -/
def clickAndWait (b : FormButton) : List FAction :=
  match waitForNavigationCatch with
  | PyResult.ok _ => [FAction.clickButton b]
  | PyResult.exn => []

/-- The driver-call trace of one iteration of process_form_chain on
target form f: fill every input, screenshot, highlight the first button,
screenshot, CLICK step, screenshot, remove the outline. -/
def formIteration (oracle : InputField → Option String) (f : Form)
    (pageLabel : String) : List FAction :=
  (f.inputs.map (fun i => FAction.fill i (generate_mock_value oracle i)))
  ++ [FAction.screenshot ("Filled inputs on " ++ pageLabel)]
  ++ [FAction.highlight (firstButton f)]
  ++ [FAction.screenshot ("Highlight button on " ++ pageLabel)]
  ++ clickAndWait (firstButton f)
  ++ [FAction.screenshot ("After click on " ++ pageLabel)]
  ++ [FAction.removeOutline (firstButton f)]

/-- The page reached after one iteration.  env models the browser: the page
a click on a given button of the current page would lead to (navigation or
in-place DOM mutation).  Because the CLICK step raises before btn.click()
is evaluated, the page never changes. -/
def pageAfterIteration (env : FPage → FormButton → FPage) (p : FPage) (f : Form) : FPage :=
  match waitForNavigationCatch with
  | PyResult.ok _ => env p (firstButton f)
  | PyResult.exn => p

/-- Model of process_form_chain: the while True loop, run with explicit
fuel.  none means the fuel was exhausted with the loop still running; the
source has no iteration cap, so a run that is none for every fuel is an
infinite loop. -/
def process_form_chain (oracle : InputField → Option String)
    (env : FPage → FormButton → FPage) (pageLabel : String) :
    Nat → FPage → Option (List FAction)
  | 0, _ => none
  | fuel + 1, p =>
    match scanForm p with
    | none => some []
    | some f =>
      (process_form_chain oracle env pageLabel fuel (pageAfterIteration env p f)).map
        (fun rest => formIteration oracle f pageLabel ++ rest)

/-- Model of highlight_and_click of crawl_indigo_buttons.py: add the
outline, run the same gather pattern (whose first argument evaluation
raises AttributeError, caught by the except), remove the outline. -/
def highlight_and_click (b : FormButton) : List FAction :=
  [FAction.highlight b] ++ clickAndWait b ++ [FAction.removeOutline b]

/-- Count of fill actions in a trace. -/
def fillCount (tr : List FAction) : Nat :=
  (tr.filter (fun a => match a with | FAction.fill _ _ => true | _ => false)).length

/-- Count of button-click actions in a trace. -/
def clickCount (tr : List FAction) : Nat :=
  (tr.filter (fun a => match a with | FAction.clickButton _ => true | _ => false)).length

/-! ## Model of the DOM and the input-control association resolvers

Elements carry a numeric uid acting as Python object identity, a tag name
and the attributes the resolvers read.  An attribute value "" models an
absent attribute (the sources test attributes for truthiness).
-/

structure ElemAttrs where
  idAttr : String
  nameAttr : String
  placeholder : String
  dataTarget : String
  onclick : String
deriving DecidableEq, Repr

inductive Elem where
  | node (uid : Nat) (tag : String) (attrs : ElemAttrs) (children : List Elem)

def Elem.uid : Elem → Nat
  | Elem.node u _ _ _ => u

def Elem.tag : Elem → String
  | Elem.node _ t _ _ => t

def Elem.attrs : Elem → ElemAttrs
  | Elem.node _ _ a _ => a

def Elem.children : Elem → List Elem
  | Elem.node _ _ _ cs => cs

mutual
def allElems : Elem → List Elem
  | Elem.node u t a cs => Elem.node u t a cs :: allElemsList cs
def allElemsList : List Elem → List Elem
  | [] => []
  | e :: es => allElems e ++ allElemsList es
end

/-- Model of document.getElementById: the first element in document order
carrying the given (nonempty) id. -/
def getElementById (doc : Elem) (i : String) : Option Elem :=
  (allElems doc).find? (fun e => e.attrs.idAttr == i)

/-- Model of document.querySelectorAll with selector
input[data-target="tid"]: all inputs of the document, in document order,
whose data-target attribute equals tid. -/
def inputsWithDataTarget (doc : Elem) (tid : String) : List Elem :=
  (allElems doc).filter (fun e => e.tag == "input" && e.attrs.dataTarget == tid)

/- Strict ancestors of the element with the given uid, innermost first
(none when the uid does not occur in the tree). -/
mutual
def ancestorsOf (u : Nat) : Elem → Option (List Elem)
  | Elem.node v t a cs =>
    if v = u then some []
    else (ancestorsOfList u cs).map (fun p => p ++ [Elem.node v t a cs])
def ancestorsOfList (u : Nat) : List Elem → Option (List Elem)
  | [] => none
  | e :: es =>
    match ancestorsOf u e with
    | some p => some p
    | none => ancestorsOfList u es
end

/-- Model of btn.closest("div, section"): the nearest of the element itself
and its ancestors whose tag is div or section. -/
def closestDivSection (doc : Elem) (btn : Elem) : Option Elem :=
  match ancestorsOf btn.uid doc with
  | none => none
  | some anc => (btn :: anc).find? (fun e => e.tag == "div" || e.tag == "section")

/-- Descendant inputs of a container that carry an id attribute, in
document order (querySelectorAll("input[id]") on the container). -/
def inputsWithIdIn (container : Elem) : List Elem :=
  ((allElems container).drop 1).filter
    (fun e => e.tag == "input" && e.attrs.idAttr ≠ "")

/-- Model of re.findall applied to the pattern matching a quote (single or
double), one or more non-quote characters, then a quote, returning the
captured bodies of the non-overlapping left-to-right matches.  The second
argument carries the body accumulated since the currently open quote
(none when no quote is open). -/
def findQuotedGo : Chars → Option Chars → List Chars
  | [], _ => []
  | c :: cs, none =>
    if c == squote || c == dquote then findQuotedGo cs (some [])
    else findQuotedGo cs none
  | c :: cs, some acc =>
    if c == squote || c == dquote then
      if acc.isEmpty then findQuotedGo cs (some [])
      else acc.reverse :: findQuotedGo cs none
    else findQuotedGo cs (some (c :: acc))

/-- Quoted string literals of an inline handler attribute, left to right. -/
def findQuoted (s : String) : List String :=
  (findQuotedGo s.toList none).map (fun l => String.mk l)

/-- Model of collect_related_input_ids of crawl_indigo_buttons.py.  Three
heuristic tiers, each returning early when it yields a nonempty result:
quoted ids of the inline onclick handler that exist in the DOM; inputs
whose data-target equals the button id; inputs with an id inside the
nearest div-or-section container. -/
def collect_related_input_ids (doc : Elem) (btn : Elem) : List String :=
  let onclickAttr := btn.attrs.onclick
  let ids :=
    if onclickAttr ≠ "" then
      (findQuoted onclickAttr).filter (fun rid => (getElementById doc rid).isSome)
    else []
  if onclickAttr ≠ "" ∧ ids ≠ [] then ids
  else
    let btnId := btn.attrs.idAttr
    let idsViaData :=
      if btnId ≠ "" then
        (inputsWithDataTarget doc btnId).filterMap
          (fun e => if e.attrs.idAttr ≠ "" then some e.attrs.idAttr else none)
      else []
    if btnId ≠ "" ∧ idsViaData ≠ [] then idsViaData
    else
      match closestDivSection doc btn with
      | none => []
      | some container => (inputsWithIdIn container).map (fun e => e.attrs.idAttr)

/-- The tier-1 result of collect_related_input_ids (inline handler ids
that resolve in the DOM). -/
def onclickTier (doc : Elem) (btn : Elem) : List String :=
  if btn.attrs.onclick ≠ "" then
    (findQuoted btn.attrs.onclick).filter (fun rid => (getElementById doc rid).isSome)
  else []

/-- The tier-2 result of collect_related_input_ids (data-target linkage). -/
def dataTargetTier (doc : Elem) (btn : Elem) : List String :=
  if btn.attrs.idAttr ≠ "" then
    (inputsWithDataTarget doc btn.attrs.idAttr).filterMap
      (fun e => if e.attrs.idAttr ≠ "" then some e.attrs.idAttr else none)
  else []

/-- The tier-3 result of collect_related_input_ids (container proximity). -/
def proximityTier (doc : Elem) (btn : Elem) : List String :=
  match closestDivSection doc btn with
  | none => []
  | some container => (inputsWithIdIn container).map (fun e => e.attrs.idAttr)

/-! Model of find_associated_inputs of selenium_crawl.py. -/

/-- Model of build_input_selector: prefer input#id, then input[name=...],
then input[placeholder=...], else none. -/
def build_input_selector (e : Elem) : Option String :=
  if e.attrs.idAttr ≠ "" then some ("input#" ++ e.attrs.idAttr)
  else if e.attrs.nameAttr ≠ "" then some ("input[name=" ++ e.attrs.nameAttr ++ "]")
  else if e.attrs.placeholder ≠ "" then some ("input[placeholder=" ++ e.attrs.placeholder ++ "]")
  else none

/-- Descendant inputs of a container (find_elements By.TAG_NAME "input"),
in document order. -/
def inputDescendants (container : Elem) : List Elem :=
  ((allElems container).drop 1).filter (fun e => e.tag == "input")

/-- Model of find_element(By.XPATH, "./ancestor::form"): the ancestor axis
is returned in document order, so the first match is the outermost form
ancestor. -/
def outermostAncestorWithTag (doc : Elem) (btn : Elem) (tags : List String) : Option Elem :=
  match ancestorsOf btn.uid doc with
  | none => none
  | some anc => anc.reverse.find? (fun e => tags.contains e.tag)

/-- Model of find_associated_inputs of selenium_crawl.py.  The associated
variable is a Python set of selector strings; it is modelled as a
duplicate-free list (dedup preserving first occurrences).  For a button
inside a form, the form inputs are returned; for a form-less button, the
data-target inputs and the inputs of the ancestor div-or-section are both
added to the same set. -/
def find_associated_inputs (doc : Elem) (btn : Elem) : List String :=
  match outermostAncestorWithTag doc btn ["form"] with
  | some form => ((inputDescendants form).filterMap build_input_selector).dedup
  | none =>
    let fromDataTarget :=
      if btn.attrs.idAttr ≠ "" then
        (inputsWithDataTarget doc btn.attrs.idAttr).filterMap build_input_selector
      else []
    let fromContainer :=
      match outermostAncestorWithTag doc btn ["div", "section"] with
      | none => []
      | some container => (inputDescendants container).filterMap build_input_selector
    (fromDataTarget ++ fromContainer).dedup

/-! ## Model of the BFS crawl loops

Both crawl_and_record functions share the shape: pop the frontier head,
skip it when already visited, otherwise mark it visited, count it against
the page budget, then attempt navigation; on success extract links and
enqueue some of them.  The browser and network are modelled by an oracle
nav : String → Option (List String): nav u = none means page.goto raised
(the page loads nothing and yields no links); nav u = some links means
the page loaded and yielded that list of in-domain normalized hrefs, in
extraction order.  Each loop iteration additionally emits trace
events. -/

inductive CrawlEvent where
  | dequeue (u : String)
  | skip (u : String)
  | visit (u : String)
  | navOk (u : String)
  | navFail (u : String)
  | enqueue (u : String)
deriving DecidableEq, Repr

namespace CrawlButton

/-- State of the crawl loop of crawl_and_record in crawl_button.py. -/
structure CState where
  visited : List String
  frontier : List String
  pages_visited : Nat
deriving DecidableEq, Repr

/-- One iteration of the while loop of crawl_and_record in crawl_button.py.
none means the loop guard fails (empty frontier or page budget reached).
The enqueue filter checks membership in visited only: the frontier itself
is not consulted, so a URL already queued can be queued again.  The check
if not url models the falsy test on a None seed, with None rendered as the
empty string. -/
def step (nav : String → Option (List String)) (maxPages : Nat) (s : CState) :
    Option (CState × List CrawlEvent) :=
  if s.pages_visited < maxPages then
    match s.frontier with
    | [] => none
    | u :: rest =>
      if u = "" ∨ u ∈ s.visited then
        some ({ s with frontier := rest }, [CrawlEvent.dequeue u, CrawlEvent.skip u])
      else
        let s1 : CState :=
          { visited := u :: s.visited, frontier := rest,
            pages_visited := s.pages_visited + 1 }
        match nav u with
        | none =>
          some (s1, [CrawlEvent.dequeue u, CrawlEvent.visit u, CrawlEvent.navFail u])
        | some links =>
          let newLinks := links.filter (fun l => l ∉ s1.visited)
          some ({ s1 with frontier := rest ++ newLinks },
                [CrawlEvent.dequeue u, CrawlEvent.visit u, CrawlEvent.navOk u]
                ++ newLinks.map CrawlEvent.enqueue)
  else none

/-- The crawl loop run with fuel, returning the final state and the event
trace. -/
def run (nav : String → Option (List String)) (maxPages : Nat) :
    Nat → CState → CState × List CrawlEvent
  | 0, s => (s, [])
  | fuel + 1, s =>
    match step nav maxPages s with
    | none => (s, [])
    | some (s', evs) =>
      let r := run nav maxPages fuel s'
      (r.1, evs ++ r.2)

/-- The initial state: seeded frontier, nothing visited, zero pages. -/
def init (seed : String) : CState :=
  { visited := [], frontier := [seed], pages_visited := 0 }

end CrawlButton

namespace InfiniteScroll

/-- State of the crawl loop of crawl_and_record in
infinite_scroll_crawler_links_butt.py: the BFS state plus the
link-frequency table (an association list with unique keys, modelling the
defaultdict) and the global-link set. -/
structure CState where
  visited : List String
  frontier : List String
  link_freq : List (String × Nat)
  global_links : List String
  pages_visited : Nat
deriving DecidableEq, Repr

/-- Lookup in the frequency table (a missing key counts 0, as in the
defaultdict). -/
def freqGet (t : List (String × Nat)) (k : String) : Nat :=
  ((t.find? (fun e => e.1 == k)).map (fun e => e.2)).getD 0

/-- Increment one key of the frequency table. -/
def freqBump (t : List (String × Nat)) (k : String) : List (String × Nat) :=
  if (t.find? (fun e => e.1 == k)).isSome then
    t.map (fun e => if e.1 == k then (e.1, e.2 + 1) else e)
  else t ++ [(k, 1)]

/-- The loop for href in extracted_hrefs: link_freq[href] += 1; every
occurrence counts, including repeated occurrences on one page. -/
def freqBumpAll (t : List (String × Nat)) : List String → List (String × Nat)
  | [] => t
  | h :: hs => freqBumpAll (freqBump t h) hs

/-- The one-shot computation of global_links: keys whose count is at least
freqLimit - 1. -/
def computeGlobal (t : List (String × Nat)) (freqLimit : Nat) : List String :=
  (t.filter (fun e => freqLimit - 1 ≤ e.2)).map (fun e => e.1)

/-- The enqueue loop: append each href not yet visited, not already in the
(growing) frontier and not in global_links. -/
def enqueueAll (visited global : List String) : List String → List String → List String
  | fr, [] => fr
  | fr, h :: hs =>
    enqueueAll visited global
      (if h ∉ visited ∧ h ∉ fr ∧ h ∉ global then fr ++ [h] else fr) hs

/-- One iteration of the while loop of crawl_and_record in
infinite_scroll_crawler_links_butt.py.  On navigation failure the continue
skips frequency accounting, the global-link computation and enqueueing.
The frequency table is updated only while pages_visited is at most
freqLimit, and global_links is computed exactly when pages_visited equals
freqLimit, before the enqueue loop of the same iteration. -/
def step (nav : String → Option (List String)) (maxPages freqLimit : Nat)
    (s : CState) : Option (CState × List CrawlEvent) :=
  if s.pages_visited < maxPages then
    match s.frontier with
    | [] => none
    | u :: rest =>
      if u ∈ s.visited then
        some ({ s with frontier := rest }, [CrawlEvent.dequeue u, CrawlEvent.skip u])
      else
        let s1 : CState :=
          { s with visited := u :: s.visited, frontier := rest,
                   pages_visited := s.pages_visited + 1 }
        match nav u with
        | none =>
          some (s1, [CrawlEvent.dequeue u, CrawlEvent.visit u, CrawlEvent.navFail u])
        | some hrefs =>
          let freq' :=
            if s1.pages_visited ≤ freqLimit then freqBumpAll s.link_freq hrefs
            else s.link_freq
          let global' :=
            if s1.pages_visited ≤ freqLimit ∧ s1.pages_visited = freqLimit then
              computeGlobal freq' freqLimit
            else s.global_links
          let fr' := enqueueAll s1.visited global' rest hrefs
          let enqueued := fr'.drop rest.length
          some ({ s1 with link_freq := freq', global_links := global', frontier := fr' },
                [CrawlEvent.dequeue u, CrawlEvent.visit u, CrawlEvent.navOk u]
                ++ enqueued.map CrawlEvent.enqueue)
  else none

/-- The crawl loop run with fuel, returning the final state and the event
trace. -/
def run (nav : String → Option (List String)) (maxPages freqLimit : Nat) :
    Nat → CState → CState × List CrawlEvent
  | 0, s => (s, [])
  | fuel + 1, s =>
    match step nav maxPages freqLimit s with
    | none => (s, [])
    | some (s', evs) =>
      let r := run nav maxPages freqLimit fuel s'
      (r.1, evs ++ r.2)

/-- The initial state: seeded frontier, empty table and global set. -/
def init (seed : String) : CState :=
  { visited := [], frontier := [seed], link_freq := [], global_links := [],
    pages_visited := 0 }

/-- FREQ_LIMIT of the source: the first five pages are sampled. -/
def FREQ_LIMIT : Nat := 5

end InfiniteScroll

/-! ## Concrete scenarios used by the claim theorems -/

/-- An attribute record with every attribute absent. -/
def noAttrs : ElemAttrs :=
  { idAttr := "", nameAttr := "", placeholder := "", dataTarget := "", onclick := "" }

/-- The inline handler text of the testable-property scenario of the spec,
referencing the element ids email and pass in quotes. -/
def loginOnclick : String := "login(\x27email\x27,\x27pass\x27)"

/-- The login button whose inline onclick handler references email and
pass. -/
def btnEP : Elem := Elem.node 5 "button" { noAttrs with onclick := loginOnclick } []

/-- A document holding inputs with ids email and pass, and the login
button inside a div that also contains an unrelated identified input. -/
def docEP : Elem :=
  Elem.node 0 "body" noAttrs
    [ Elem.node 1 "input" { noAttrs with idAttr := "email" } [],
      Elem.node 2 "input" { noAttrs with idAttr := "pass" } [],
      Elem.node 3 "div" noAttrs
        [ Elem.node 4 "input" { noAttrs with idAttr := "near" } [],
          btnEP ] ]

/-- A form-less button with id go. -/
def btnFA : Elem := Elem.node 4 "button" { noAttrs with idAttr := "go" } []

/-- A document where the button go has a data-target input (id dt)
elsewhere in the document and an identified input (id near) inside its
ancestor div. -/
def docFA : Elem :=
  Elem.node 0 "body" noAttrs
    [ Elem.node 1 "input" { noAttrs with idAttr := "dt", dataTarget := "go" } [],
      Elem.node 2 "div" noAttrs
        [ Elem.node 3 "input" { noAttrs with idAttr := "near" } [],
          btnFA ] ]

/-- A username input control. -/
def inpUser : InputField :=
  { nameAttr := "user", idAttr := "u", placeholder := "", typeAttr := "text" }

/-- A password input control. -/
def inpPw : InputField :=
  { nameAttr := "pw", idAttr := "p", placeholder := "", typeAttr := "password" }

/-- A form with one input and no button: it never qualifies for SCAN. -/
def form0 : Form := { inputs := [inpUser], buttons := [] }

/-- A qualifying form with two inputs and one button. -/
def form1 : Form := { inputs := [inpUser, inpPw], buttons := [{ label := "Login" }] }

/-- A page whose first form does not qualify and whose second form does. -/
def page1 : FPage := { forms := [form0, form1] }

/-- An oracle that always fails, so every field falls back to "test". -/
def oracle0 : InputField → Option String := fun _ => none

/-- A best-case browser: any click removes every form from the page. -/
def env0 : FPage → FormButton → FPage := fun _ _ => { forms := [] }

/-- Link oracle of the C1 scenario: pages A and B both link to C. -/
def nav1 : String → Option (List String)
  | "A" => some ["B", "C"]
  | "B" => some ["C"]
  | "C" => some []
  | _ => none

/-- Link oracle of the C4 scenario: the link L occurs on the four pages
A, B, L, C that load, and the fifth visited page D fails to load. -/
def nav2 : String → Option (List String)
  | "A" => some ["B", "L"]
  | "B" => some ["C", "L"]
  | "L" => some ["L"]
  | "C" => some ["D", "L"]
  | _ => none

/-- Link oracle of the C5 scenario: page A contains two anchors whose
hrefs normalize to the same link L. -/
def nav3 : String → Option (List String)
  | "A" => some ["L", "L"]
  | _ => none

/-! ## Helper lemmas -/

/-- With scanForm finding a target and the CLICK step raising before the
click is evaluated, the page never changes, so the while True loop of
process_form_chain never finishes, whatever the fuel. -/
theorem process_form_chain_none_of_scan_some
    (oracle : InputField → Option String) (env : FPage → FormButton → FPage)
    (lbl : String) (p : FPage) (f : Form) (hscan : scanForm p = some f) :
    ∀ fuel, process_form_chain oracle env lbl fuel p = none := by
  intro fuel
  induction fuel with
  | zero => rfl
  | succ n ih =>
    have hpage : pageAfterIteration env p f = p := rfl
    simp [process_form_chain, hscan, hpage, ih]

/-! ## Claim C2: the domain filter -/

/-- Claim C2 (status code_bug).  The in_domain of crawl_button.py reads
the attribute origin of a urllib ParseResult; that attribute does not
exist, the AttributeError is swallowed by the bare except, and the
function returns False on every input — in particular on an in-domain
absolute URL whose scheme and authority equal the home origin's, which
the claim requires to be classified in-domain.  The last conjunct shows
the two URLs of the failing input do have equal scheme and authority. -/
theorem c2_in_domain_code_bug :
    CrawlButton.in_domain ("https://example.com/page").toList ("https://example.com").toList = false
    ∧ (∀ link base, CrawlButton.in_domain link base = false)
    ∧ (urlparse ("https://example.com/page").toList).map (fun p => (p.scheme, p.netloc))
      = (urlparse ("https://example.com").toList).map (fun p => (p.scheme, p.netloc)) := by
  refine ⟨by decide, ?_, by decide⟩
  intro link base
  unfold CrawlButton.in_domain
  cases urlparse link <;> cases urlparse base <;> rfl

/-! ## Claim C6: the CLICK step -/

/-- Claim C6 (status code_bug).  The CLICK step never invokes the button:
evaluating the first asyncio.gather argument
page.waitForNavigation(...).catch(lambda _: None) raises AttributeError
(Python coroutines have no catch attribute) before btn.click() is
evaluated, and the bare except swallows the error.  So no click action is
ever emitted, neither by process_form_chain of crawl_button.py nor by
highlight_and_click of crawl_indigo_buttons.py, while the loop does
continue with the next iteration. -/
theorem c6_click_never_attempted_code_bug :
    waitForNavigationCatch = PyResult.exn
    ∧ (∀ b, clickAndWait b = [])
    ∧ (∀ b, clickCount (highlight_and_click b) = 0)
    ∧ (∀ oracle f lbl, clickCount (formIteration oracle f lbl) = 0) := by
  refine ⟨rfl, fun b => rfl, fun b => rfl, ?_⟩
  intro oracle f lbl
  simp [formIteration, clickCount, clickAndWait, waitForNavigationCatch,
        List.filter_append]

/-! ## Claim C3: fills before the click, first-form selection, DONE -/

/-- Claim C3 (status code_bug).  For every oracle and every form the
iteration performs exactly one fill per input of the form — but zero
clicks, where the claim requires exactly one: the click is never evaluated
because the gather argument page.waitForNavigation(...).catch raises
AttributeError first.  On the concrete page whose first form lacks a
button, SCAN selects the second form (first qualifying form in document
order), the iteration fills its two inputs with the oracle fallback and
clicks nothing, and a page without a qualifying form makes the loop
finish immediately (DONE). -/
theorem c3_fill_and_click_code_bug :
    (∀ oracle f lbl, fillCount (formIteration oracle f lbl) = f.inputs.length
      ∧ clickCount (formIteration oracle f lbl) = 0)
    ∧ scanForm page1 = some form1
    ∧ qualifies form0 = false
    ∧ fillCount (formIteration oracle0 form1 "root") = 2
    ∧ clickCount (formIteration oracle0 form1 "root") = 0
    ∧ (∀ oracle env lbl p, scanForm p = none →
        process_form_chain oracle env lbl 1 p = some []) := by
  refine ⟨?_, by decide, by decide, by decide, by decide, ?_⟩
  · intro oracle f lbl
    constructor
    · simp [formIteration, fillCount, clickAndWait, waitForNavigationCatch,
            List.filter_append]
      induction f.inputs with
      | nil => rfl
      | cons i t ih => simpa [List.filter] using ih
    · simp [formIteration, clickCount, clickAndWait, waitForNavigationCatch,
            List.filter_append]
  · intro oracle env lbl p hscan
    simp [process_form_chain, hscan]

/-! ## Claim C7: termination of the form-interaction loop -/

/-- Claim C7 (status code_bug).  The while True loop of process_form_chain
has no iteration cap, and because the CLICK step raises before the click
is evaluated the page never changes; on the concrete page holding a
qualifying form the loop therefore never finishes for any fuel, even under
a browser env0 for which a click would remove every form. -/
theorem c7_loop_never_terminates_code_bug :
    ¬ ∃ fuel, (process_form_chain oracle0 env0 "root" fuel page1).isSome := by
  rintro ⟨fuel, h⟩
  rw [process_form_chain_none_of_scan_some oracle0 env0 "root" page1 form1 (by decide) fuel] at h
  exact Bool.noConfusion h

/-- The control flow of collect_related_input_ids is the cascade of its
three heuristic tiers, first nonempty result winning. -/
theorem collect_related_input_ids_cascade (doc btn : Elem) :
    collect_related_input_ids doc btn =
      if onclickTier doc btn ≠ [] then onclickTier doc btn
      else if dataTargetTier doc btn ≠ [] then dataTargetTier doc btn
      else proximityTier doc btn := by
  unfold collect_related_input_ids onclickTier dataTargetTier proximityTier
  dsimp only
  split_ifs <;> first | rfl | tauto

/-! ## Claim C9: the input-control association resolver -/

/-- Claim C9 counterexample (status corrected).  find_associated_inputs of
selenium_crawl.py merges two heuristic tiers: for the form-less button go
of docFA it returns both the data-target input (input#dt) and the
container-proximity input (input#near) in one result, so the resolver of
that variant does not use exactly one tier per button. -/
theorem c9_counterexample :
    find_associated_inputs docFA btnFA = ["input#dt", "input#near"]
    ∧ (inputsWithDataTarget docFA "go").filterMap build_input_selector = ["input#dt"]
    ∧ (outermostAncestorWithTag docFA btnFA ["div", "section"]).map
        (fun c => (inputDescendants c).filterMap build_input_selector) = some ["input#near"]
    ∧ (outermostAncestorWithTag docFA btnFA ["form"]).isNone = true := by
  refine ⟨by decide, by decide, ?_, ?_⟩ <;> decide

/-- Claim C9 amended (status corrected).  collect_related_input_ids of
crawl_indigo_buttons.py does use exactly one heuristic tier per button,
in the order inline-handler parsing, data-target linkage, container
proximity, first nonempty result winning, and never merges two tiers; on
the concrete document docEP whose button handler references email and
pass, both existing in the DOM, it returns exactly those ids and does not
fall through to the proximity tier (which would return near).  The
find_associated_inputs variant of selenium_crawl.py violates the claim
(see the counterexample). -/
theorem c9_one_tier_amended :
    (∀ doc btn, onclickTier doc btn ≠ [] →
        collect_related_input_ids doc btn = onclickTier doc btn)
    ∧ (∀ doc btn, onclickTier doc btn = [] → dataTargetTier doc btn ≠ [] →
        collect_related_input_ids doc btn = dataTargetTier doc btn)
    ∧ (∀ doc btn, onclickTier doc btn = [] → dataTargetTier doc btn = [] →
        collect_related_input_ids doc btn = proximityTier doc btn)
    ∧ collect_related_input_ids docEP btnEP = ["email", "pass"]
    ∧ onclickTier docEP btnEP = ["email", "pass"]
    ∧ proximityTier docEP btnEP = ["near"] := by
  refine ⟨?_, ?_, ?_, by decide, by decide, by decide⟩ <;> intro doc btn <;>
    rw [collect_related_input_ids_cascade doc btn]
  · intro h
    simp [h]
  · intro h1 h2
    simp [h1, h2]
  · intro h1 h2
    simp [h1, h2]

/-- Witness for c9_one_tier_amended at the concrete document docEP. -/
theorem c9_one_tier_amended_witness :
    collect_related_input_ids docEP btnEP = onclickTier docEP btnEP :=
  c9_one_tier_amended.1 docEP btnEP (by decide)

/-! ## Helper lemmas for the crawl loops -/

namespace CrawlButton

/-- Complete case analysis of one iteration of the crawl_button.py loop. -/
theorem cb_step_cases {nav : String → Option (List String)} {mp : Nat}
    {s s' : CState} {evs : List CrawlEvent}
    (h : step nav mp s = some (s', evs)) :
    s.pages_visited < mp ∧ ∃ u rest, s.frontier = u :: rest ∧
      (((u = "" ∨ u ∈ s.visited) ∧ s' = { s with frontier := rest }
          ∧ evs = [CrawlEvent.dequeue u, CrawlEvent.skip u])
       ∨ (¬(u = "" ∨ u ∈ s.visited) ∧ nav u = none
          ∧ s' = { visited := u :: s.visited, frontier := rest,
                   pages_visited := s.pages_visited + 1 }
          ∧ evs = [CrawlEvent.dequeue u, CrawlEvent.visit u, CrawlEvent.navFail u])
       ∨ (¬(u = "" ∨ u ∈ s.visited) ∧ ∃ links, nav u = some links
          ∧ s' = { visited := u :: s.visited,
                   frontier := rest ++ links.filter (fun l => l ∉ u :: s.visited),
                   pages_visited := s.pages_visited + 1 }
          ∧ evs = [CrawlEvent.dequeue u, CrawlEvent.visit u, CrawlEvent.navOk u]
              ++ (links.filter (fun l => l ∉ u :: s.visited)).map CrawlEvent.enqueue)) := by
  unfold step at h
  split at h
  case isFalse => simp at h
  case isTrue hp =>
    refine ⟨hp, ?_⟩
    split at h
    · simp at h
    · next u rest hfr =>
      refine ⟨u, rest, hfr, ?_⟩
      split at h
      · next hskip =>
        cases h
        exact Or.inl ⟨hskip, rfl, rfl⟩
      · next hskip =>
        split at h
        · next hnv =>
          cases h
          exact Or.inr (Or.inl ⟨hskip, hnv, rfl, rfl⟩)
        · next links hnv =>
          cases h
          exact Or.inr (Or.inr ⟨hskip, links, hnv, rfl, rfl⟩)

end CrawlButton

namespace CrawlButton

/-- One crawl step only grows the visited set. -/
theorem cb_step_visited_mono {nav mp s s' evs} (h : step nav mp s = some (s', evs)) :
    ∀ u, u ∈ s.visited → u ∈ s'.visited := by
  intro u hu
  obtain ⟨-, w, rest, -, hbr⟩ := cb_step_cases h
  rcases hbr with ⟨-, rfl, -⟩ | ⟨-, -, rfl, -⟩ | ⟨-, links, -, rfl, -⟩ <;>
    simp [hu]

end CrawlButton

/-- A list of enqueue events holds no visit event. -/
theorem count_visit_map_enqueue (u : String) (xs : List String) :
    (xs.map CrawlEvent.enqueue).count (CrawlEvent.visit u) = 0 := by
  refine List.count_eq_zero.mpr ?_
  intro hmem
  obtain ⟨a, -, ha⟩ := List.mem_map.mp hmem
  exact CrawlEvent.noConfusion ha

/-- Counting an enqueue event in a list of enqueue events counts the
underlying URL. -/
theorem count_enqueue_map_enqueue (u : String) (xs : List String) :
    (xs.map CrawlEvent.enqueue).count (CrawlEvent.enqueue u) = xs.count u :=
  List.count_map_of_injective xs CrawlEvent.enqueue
    (fun a b hab => by cases hab; rfl) u

/-- A suffix of a list of enqueue events still holds no visit event. -/
theorem count_visit_drop_map_enqueue (u : String) (n : Nat) (xs : List String) :
    (List.drop n (xs.map CrawlEvent.enqueue)).count (CrawlEvent.visit u) = 0 := by
  refine List.count_eq_zero.mpr ?_
  intro hmem
  obtain ⟨a, -, ha⟩ := List.mem_map.mp (List.mem_of_mem_drop hmem)
  exact CrawlEvent.noConfusion ha

namespace CrawlButton

/-- Unfolding of one step of the fueled run. -/
theorem cb_run_succ (nav : String → Option (List String)) (mp n : Nat) (s : CState) :
    run nav mp (n + 1) s =
      match step nav mp s with
      | none => (s, [])
      | some (s', evs) => ((run nav mp n s').1, evs ++ (run nav mp n s').2) := rfl

/-- A URL already visited is never visited again and never enqueued again
by the crawl_button.py loop: the run from any state whose visited set
contains u emits no visit or enqueue event for u, and u stays visited. -/
theorem cb_run_visited_permanent (nav : String → Option (List String)) (mp : Nat) :
    ∀ (fuel : Nat) (s : CState) (u : String), u ∈ s.visited →
      (run nav mp fuel s).2.count (CrawlEvent.visit u) = 0
      ∧ (run nav mp fuel s).2.count (CrawlEvent.enqueue u) = 0
      ∧ u ∈ (run nav mp fuel s).1.visited := by
  intro fuel
  induction fuel with
  | zero => intro s u hu; exact ⟨rfl, rfl, hu⟩
  | succ n ih =>
    intro s u hu
    rw [cb_run_succ]
    cases hstep : step nav mp s with
    | none => exact ⟨rfl, rfl, hu⟩
    | some r =>
      obtain ⟨s', evs⟩ := r
      have hu' : u ∈ s'.visited := cb_step_visited_mono hstep u hu
      obtain ⟨c1, c2, c3⟩ := ih s' u hu'
      obtain ⟨-, w, rest, -, hbr⟩ := cb_step_cases hstep
      have hwne : ∀ (hw : ¬(w = "" ∨ w ∈ s.visited)), w ≠ u := by
        intro hw hequ
        exact hw (Or.inr (hequ ▸ hu))
      rcases hbr with ⟨hsk, -, rfl⟩ | ⟨hsk, -, -, rfl⟩ | ⟨hsk, links, -, -, rfl⟩
      · simpa [List.count_append] using ⟨c1, c2, c3⟩
      · refine ⟨?_, ?_, c3⟩ <;>
          simp [List.count_append, List.count_cons, c1, c2, hwne hsk]
      · refine ⟨?_, ?_, c3⟩
        · simp [List.count_append, List.count_cons, c1, hwne hsk,
                count_visit_map_enqueue]
        · simp only [List.count_append, List.count_cons, c2,
                     count_enqueue_map_enqueue]
          simp
          refine List.count_eq_zero.mpr ?_
          intro hmem
          have := List.of_mem_filter hmem
          simp at this
          exact this.2 hu

/-- The crawl_button.py loop visits (processes) any given URL at most once
over a whole run, from any starting state. -/
theorem cb_run_visit_at_most_once (nav : String → Option (List String)) (mp : Nat) :
    ∀ (fuel : Nat) (s : CState) (u : String),
      (run nav mp fuel s).2.count (CrawlEvent.visit u) ≤ 1 := by
  intro fuel
  induction fuel with
  | zero => intro s u; simp [run]
  | succ n ih =>
    intro s u
    rw [cb_run_succ]
    cases hstep : step nav mp s with
    | none => simp
    | some r =>
      obtain ⟨s', evs⟩ := r
      obtain ⟨-, w, rest, -, hbr⟩ := cb_step_cases hstep
      by_cases hwu : w = u
      · subst hwu
        rcases hbr with ⟨hsk, rfl, rfl⟩ | ⟨hsk, -, rfl, rfl⟩ | ⟨hsk, links, -, rfl, rfl⟩
        · simpa [List.count_append, List.count_cons] using ih _ w
        · have h0 := (cb_run_visited_permanent nav mp n
            { visited := w :: s.visited, frontier := rest,
              pages_visited := s.pages_visited + 1 } w (List.mem_cons_self _ _)).1
          simp [List.count_append, List.count_cons, h0]
        · have h0 := (cb_run_visited_permanent nav mp n
            { visited := w :: s.visited,
              frontier := rest ++ links.filter (fun l => l ∉ w :: s.visited),
              pages_visited := s.pages_visited + 1 } w (List.mem_cons_self _ _)).1
          simp [List.count_append, List.count_cons, count_visit_map_enqueue] at h0 ⊢
          exact h0
      · rcases hbr with ⟨hsk, rfl, rfl⟩ | ⟨hsk, -, rfl, rfl⟩ | ⟨hsk, links, -, rfl, rfl⟩
        · simpa [List.count_append, List.count_cons] using ih _ u
        · simpa [List.count_append, List.count_cons, hwu] using ih _ u
        · simpa [List.count_append, List.count_cons, hwu,
                 count_visit_map_enqueue] using ih _ u

end CrawlButton

namespace InfiniteScroll

/-- The enqueue loop appends a duplicate-free batch of fresh links: each
appended link was not visited, not global, and not already in the frontier
it was appended to. -/
theorem enqueueAll_spec (v g : List String) :
    ∀ (hs fr : List String), ∃ extra, enqueueAll v g fr hs = fr ++ extra
      ∧ extra.Nodup ∧ ∀ w ∈ extra, w ∉ v ∧ w ∉ g ∧ w ∉ fr := by
  intro hs
  induction hs with
  | nil =>
    intro fr
    exact ⟨[], by simp [enqueueAll], List.nodup_nil, by simp⟩
  | cons h t ih =>
    intro fr
    show (∃ extra, enqueueAll v g
        (if h ∉ v ∧ h ∉ fr ∧ h ∉ g then fr ++ [h] else fr) t = fr ++ extra ∧ _ ∧ _)
    by_cases hc : h ∉ v ∧ h ∉ fr ∧ h ∉ g
    · rw [if_pos hc]
      obtain ⟨extra, he, hnd, hpr⟩ := ih (fr ++ [h])
      refine ⟨h :: extra, by simpa using he, ?_, ?_⟩
      · refine List.nodup_cons.mpr ⟨?_, hnd⟩
        intro hmem
        exact (hpr h hmem).2.2 (by simp)
      · intro w hw
        rcases List.mem_cons.mp hw with rfl | hw'
        · exact ⟨hc.1, hc.2.2, hc.2.1⟩
        · obtain ⟨p1, p2, p3⟩ := hpr w hw'
          exact ⟨p1, p2, fun hmem => p3 (by simp [hmem])⟩
    · rw [if_neg hc]
      exact ih fr

/-- The frontier only grows by appending during the enqueue loop. -/
theorem mem_enqueueAll (v g : List String) (hs fr : List String) (u : String)
    (hu : u ∈ fr) : u ∈ enqueueAll v g fr hs := by
  obtain ⟨extra, he, -, -⟩ := enqueueAll_spec v g hs fr
  rw [he]
  exact List.mem_append_left _ hu

/-- Complete case analysis of one iteration of the
infinite_scroll_crawler_links_butt.py loop. -/
theorem step_cases {nav : String → Option (List String)} {mp K : Nat}
    {s s' : CState} {evs : List CrawlEvent}
    (h : step nav mp K s = some (s', evs)) :
    s.pages_visited < mp ∧ ∃ u rest, s.frontier = u :: rest ∧
      ((u ∈ s.visited ∧ s' = { s with frontier := rest }
          ∧ evs = [CrawlEvent.dequeue u, CrawlEvent.skip u])
       ∨ (u ∉ s.visited ∧ nav u = none
          ∧ s' = { s with visited := u :: s.visited,
                          frontier := rest,
                          pages_visited := s.pages_visited + 1 }
          ∧ evs = [CrawlEvent.dequeue u, CrawlEvent.visit u, CrawlEvent.navFail u])
       ∨ (u ∉ s.visited ∧ ∃ hrefs freq' global' fr', nav u = some hrefs
          ∧ freq' = (if s.pages_visited + 1 ≤ K
                     then freqBumpAll s.link_freq hrefs else s.link_freq)
          ∧ global' = (if s.pages_visited + 1 ≤ K ∧ s.pages_visited + 1 = K
                       then computeGlobal freq' K else s.global_links)
          ∧ fr' = enqueueAll (u :: s.visited) global' rest hrefs
          ∧ s' = { visited := u :: s.visited, frontier := fr', link_freq := freq',
                   global_links := global', pages_visited := s.pages_visited + 1 }
          ∧ evs = [CrawlEvent.dequeue u, CrawlEvent.visit u, CrawlEvent.navOk u]
              ++ (fr'.drop rest.length).map CrawlEvent.enqueue)) := by
  unfold step at h
  split at h
  case isFalse => simp at h
  case isTrue hp =>
    refine ⟨hp, ?_⟩
    split at h
    · simp at h
    · next u rest hfr =>
      refine ⟨u, rest, hfr, ?_⟩
      split at h
      · next hskip =>
        cases h
        exact Or.inl ⟨hskip, rfl, rfl⟩
      · next hskip =>
        split at h
        · next hnv =>
          cases h
          exact Or.inr (Or.inl ⟨hskip, hnv, rfl, rfl⟩)
        · next hrefs hnv =>
          cases h
          exact Or.inr (Or.inr ⟨hskip, hrefs, _, _, _, hnv, rfl, rfl, rfl, rfl, rfl⟩)

/-- Unfolding of one step of the fueled run. -/
theorem run_succ (nav : String → Option (List String)) (mp K n : Nat) (s : CState) :
    run nav mp K (n + 1) s =
      match step nav mp K s with
      | none => (s, [])
      | some (s', evs) => ((run nav mp K n s').1, evs ++ (run nav mp K n s').2) := rfl

/-- One crawl step only grows the visited set. -/
theorem step_visited_mono {nav mp K s s' evs} (h : step nav mp K s = some (s', evs)) :
    ∀ u, u ∈ s.visited → u ∈ s'.visited := by
  intro u hu
  obtain ⟨-, w, rest, -, hbr⟩ := step_cases h
  rcases hbr with ⟨-, rfl, -⟩ | ⟨-, -, rfl, -⟩ | ⟨-, hrefs, f', g', fr', -, -, -, -, rfl, -⟩ <;>
    simp [hu]

end InfiniteScroll

namespace InfiniteScroll

/-- A URL already visited is never visited again and never enqueued again
by the infinite-scroll loop, and stays visited. -/
theorem run_visited_permanent (nav : String → Option (List String)) (mp K : Nat) :
    ∀ (fuel : Nat) (s : CState) (u : String), u ∈ s.visited →
      (run nav mp K fuel s).2.count (CrawlEvent.visit u) = 0
      ∧ (run nav mp K fuel s).2.count (CrawlEvent.enqueue u) = 0
      ∧ u ∈ (run nav mp K fuel s).1.visited := by
  intro fuel
  induction fuel with
  | zero => intro s u hu; exact ⟨rfl, rfl, hu⟩
  | succ n ih =>
    intro s u hu
    rw [run_succ]
    cases hstep : step nav mp K s with
    | none => exact ⟨rfl, rfl, hu⟩
    | some r =>
      obtain ⟨s', evs⟩ := r
      have hu' : u ∈ s'.visited := step_visited_mono hstep u hu
      obtain ⟨c1, c2, c3⟩ := ih s' u hu'
      obtain ⟨-, w, rest, -, hbr⟩ := step_cases hstep
      rcases hbr with ⟨hsk, rfl, rfl⟩ | ⟨hsk, -, rfl, rfl⟩ |
        ⟨hsk, hrefs, f', g', fr', hnv, hf, hg, hfr, rfl, rfl⟩
      · simpa [List.count_append, List.count_cons] using ⟨c1, c2, c3⟩
      · have hwu : w ≠ u := fun he => hsk (he ▸ hu)
        refine ⟨?_, ?_, c3⟩ <;>
          simp [List.count_append, List.count_cons, c1, c2, hwu]
      · have hwu : w ≠ u := fun he => hsk (he ▸ hu)
        obtain ⟨extra, he, hnd, hpr⟩ := enqueueAll_spec (w :: s.visited) g' hrefs rest
        have hdrop : fr'.drop rest.length = extra := by
          rw [hfr, he, List.drop_left]
        have hnomem : u ∉ extra := fun hmem => (hpr u hmem).1 (by simp [hu])
        refine ⟨?_, ?_, c3⟩
        · simp [List.count_append, List.count_cons, c1, hwu, hdrop,
                count_visit_map_enqueue]
        · simp only [List.count_append, List.count_cons, c2, hdrop,
                     count_enqueue_map_enqueue]
          simp [List.count_eq_zero.mpr hnomem, hwu]

/-- The infinite-scroll loop visits (processes) any given URL at most once
over a whole run, from any starting state. -/
theorem run_visit_at_most_once (nav : String → Option (List String)) (mp K : Nat) :
    ∀ (fuel : Nat) (s : CState) (u : String),
      (run nav mp K fuel s).2.count (CrawlEvent.visit u) ≤ 1 := by
  intro fuel
  induction fuel with
  | zero => intro s u; simp [run]
  | succ n ih =>
    intro s u
    rw [run_succ]
    cases hstep : step nav mp K s with
    | none => simp
    | some r =>
      obtain ⟨s', evs⟩ := r
      obtain ⟨-, w, rest, -, hbr⟩ := step_cases hstep
      rcases hbr with ⟨hsk, rfl, rfl⟩ | ⟨hsk, -, rfl, rfl⟩ |
        ⟨hsk, hrefs, f', g', fr', hnv, hf, hg, hfr, rfl, rfl⟩
      · simpa [List.count_append, List.count_cons] using ih _ u
      · by_cases hwu : w = u
        · subst hwu
          have h0 := (run_visited_permanent nav mp K n
            { s with visited := w :: s.visited,
                     frontier := rest,
                     pages_visited := s.pages_visited + 1 } w (List.mem_cons_self _ _)).1
          simp [List.count_append, List.count_cons, h0]
        · simpa [List.count_append, List.count_cons, hwu] using ih _ u
      · by_cases hwu : w = u
        · subst hwu
          have h0 := (run_visited_permanent nav mp K n
            { visited := w :: s.visited, frontier := fr', link_freq := f',
              global_links := g', pages_visited := s.pages_visited + 1 } w
              (List.mem_cons_self _ _)).1
          simp [List.count_append, List.count_cons, count_visit_map_enqueue,
                count_visit_drop_map_enqueue] at h0 ⊢
          exact h0
        · simpa [List.count_append, List.count_cons, hwu, count_visit_map_enqueue,
                 count_visit_drop_map_enqueue] using ih _ u

/-- From a state where u is queued or visited, the infinite-scroll loop
never emits an enqueue event for u, and u remains queued or visited. -/
theorem run_enqueue_zero (nav : String → Option (List String)) (mp K : Nat) :
    ∀ (fuel : Nat) (s : CState) (u : String),
      (u ∈ s.frontier ∨ u ∈ s.visited) →
      (run nav mp K fuel s).2.count (CrawlEvent.enqueue u) = 0 := by
  intro fuel
  induction fuel with
  | zero => intro s u _; rfl
  | succ n ih =>
    intro s u hu
    rw [run_succ]
    cases hstep : step nav mp K s with
    | none => rfl
    | some r =>
      obtain ⟨s', evs⟩ := r
      obtain ⟨-, w, rest, hfront, hbr⟩ := step_cases hstep
      rcases hbr with ⟨hsk, rfl, rfl⟩ | ⟨hsk, -, rfl, rfl⟩ |
        ⟨hsk, hrefs, f', g', fr', hnv, hf, hg, hfr, rfl, rfl⟩
      · have hu' : u ∈ rest ∨ u ∈ s.visited := by
          rcases hu with hfr | hv
          · rw [hfront] at hfr
            rcases List.mem_cons.mp hfr with rfl | hr
            · exact Or.inr hsk
            · exact Or.inl hr
          · exact Or.inr hv
        simpa [List.count_append, List.count_cons] using ih _ u hu'
      · have hu' : u ∈ rest ∨ u ∈ w :: s.visited := by
          rcases hu with hfr | hv
          · rw [hfront] at hfr
            rcases List.mem_cons.mp hfr with rfl | hr
            · exact Or.inr (by simp)
            · exact Or.inl hr
          · exact Or.inr (by simp [hv])
        simpa [List.count_append, List.count_cons] using ih _ u hu'
      · obtain ⟨extra, he, hnd, hpr⟩ := enqueueAll_spec (w :: s.visited) g' hrefs rest
        have hdrop : fr'.drop rest.length = extra := by
          rw [hfr, he, List.drop_left]
        have huWA : u ∈ w :: s.visited ∨ u ∈ rest := by
          rcases hu with hfr2 | hv
          · rw [hfront] at hfr2
            rcases List.mem_cons.mp hfr2 with rfl | hr
            · exact Or.inl (by simp)
            · exact Or.inr hr
          · exact Or.inl (by simp [hv])
        have hnomem : u ∉ extra := by
          intro hmem
          obtain ⟨p1, p2, p3⟩ := hpr u hmem
          rcases huWA with hw | hr
          · exact p1 hw
          · exact p3 hr
        have hu' : u ∈ fr' ∨ u ∈ w :: s.visited := by
          rcases huWA with hw | hr
          · exact Or.inr hw
          · exact Or.inl (by rw [hfr]; exact mem_enqueueAll _ _ _ _ _ hr)
        have hrec := ih { visited := w :: s.visited, frontier := fr', link_freq := f',
                          global_links := g', pages_visited := s.pages_visited + 1 } u hu'
        simp only [List.count_append, List.count_cons, hdrop,
                   count_enqueue_map_enqueue]
        simp [List.count_eq_zero.mpr hnomem, hrec]

/-- Any URL is enqueued at most once over a whole run of the
infinite-scroll loop, from any starting state. -/
theorem run_enqueue_at_most_once (nav : String → Option (List String)) (mp K : Nat) :
    ∀ (fuel : Nat) (s : CState) (u : String),
      (run nav mp K fuel s).2.count (CrawlEvent.enqueue u) ≤ 1 := by
  intro fuel
  induction fuel with
  | zero => intro s u; simp [run]
  | succ n ih =>
    intro s u
    rw [run_succ]
    cases hstep : step nav mp K s with
    | none => simp
    | some r =>
      obtain ⟨s', evs⟩ := r
      obtain ⟨-, w, rest, hfront, hbr⟩ := step_cases hstep
      rcases hbr with ⟨hsk, rfl, rfl⟩ | ⟨hsk, -, rfl, rfl⟩ |
        ⟨hsk, hrefs, f', g', fr', hnv, hf, hg, hfr, rfl, rfl⟩
      · simpa [List.count_append, List.count_cons] using ih _ u
      · simpa [List.count_append, List.count_cons] using ih _ u
      · obtain ⟨extra, he, hnd, hpr⟩ := enqueueAll_spec (w :: s.visited) g' hrefs rest
        have hdrop : fr'.drop rest.length = extra := by
          rw [hfr, he, List.drop_left]
        simp only [List.count_append, List.count_cons, hdrop,
                   count_enqueue_map_enqueue]
        by_cases hmem : u ∈ extra
        · have h1 : extra.count u = 1 := List.count_eq_one_of_mem hnd hmem
          have h0 : (run nav mp K n
              { visited := w :: s.visited, frontier := fr', link_freq := f',
                global_links := g', pages_visited := s.pages_visited + 1 }).2.count
                (CrawlEvent.enqueue u) = 0 := by
            refine run_enqueue_zero nav mp K n _ u (Or.inl ?_)
            rw [hfr, he]
            exact List.mem_append_right _ hmem
          simp [h1, h0]
        · have h1 : extra.count u = 0 := List.count_eq_zero.mpr hmem
          simpa [h1] using ih _ u

/-- One step never lowers the page counter. -/
theorem step_pages_mono {nav mp K s s' evs} (h : step nav mp K s = some (s', evs)) :
    s.pages_visited ≤ s'.pages_visited := by
  obtain ⟨-, w, rest, -, hbr⟩ := step_cases h
  rcases hbr with ⟨-, rfl, -⟩ | ⟨-, -, rfl, -⟩ |
    ⟨-, hrefs, f', g', fr', -, -, -, -, rfl, -⟩ <;> simp

/-- Before the freqLimit-th page is visited, the global-link set stays as
it is (in particular empty when it starts empty). -/
theorem run_global_empty (nav : String → Option (List String)) (mp K : Nat) :
    ∀ (fuel : Nat) (s : CState),
      (s.pages_visited < K → s.global_links = []) →
      ((run nav mp K fuel s).1.pages_visited < K →
        (run nav mp K fuel s).1.global_links = []) := by
  intro fuel
  induction fuel with
  | zero => intro s hs; exact hs
  | succ n ih =>
    intro s hs
    rw [run_succ]
    cases hstep : step nav mp K s with
    | none => exact hs
    | some r =>
      obtain ⟨s', evs⟩ := r
      have hmono := step_pages_mono hstep
      refine ih s' ?_
      intro hlt
      obtain ⟨-, w, rest, -, hbr⟩ := step_cases hstep
      rcases hbr with ⟨-, rfl, -⟩ | ⟨-, -, rfl, -⟩ |
        ⟨-, hrefs, f', g', fr', -, hf, hg, -, rfl, -⟩
      · exact hs hlt
      · exact hs (lt_of_le_of_lt (Nat.le_succ _) hlt)
      · have hne : ¬(s.pages_visited + 1 ≤ K ∧ s.pages_visited + 1 = K) := by
          rintro ⟨-, heq⟩
          simp at hlt
          omega
        show g' = []
        rw [hg, if_neg hne]
        refine hs ?_
        simp at hlt
        omega

/-- Once the page counter has reached freqLimit, the global-link set never
changes again. -/
theorem run_global_frozen (nav : String → Option (List String)) (mp K : Nat) :
    ∀ (fuel : Nat) (s : CState), K ≤ s.pages_visited →
      (run nav mp K fuel s).1.global_links = s.global_links := by
  intro fuel
  induction fuel with
  | zero => intro s _; rfl
  | succ n ih =>
    intro s hs
    rw [run_succ]
    cases hstep : step nav mp K s with
    | none => rfl
    | some r =>
      obtain ⟨s', evs⟩ := r
      have hmono := step_pages_mono hstep
      obtain ⟨-, w, rest, -, hbr⟩ := step_cases hstep
      rcases hbr with ⟨-, rfl, -⟩ | ⟨-, -, rfl, -⟩ |
        ⟨-, hrefs, f', g', fr', -, hf, hg, -, rfl, -⟩
      · exact ih _ hs
      · simpa using ih _ (le_trans hs (Nat.le_succ _))
      · have hne : ¬(s.pages_visited + 1 ≤ K ∧ s.pages_visited + 1 = K) := by
          rintro ⟨hle, -⟩
          omega
        have hgeq : g' = s.global_links := by rw [hg, if_neg hne]
        have := ih { visited := w :: s.visited, frontier := fr', link_freq := f',
                     global_links := g', pages_visited := s.pages_visited + 1 }
          (by simpa using le_trans hs (Nat.le_succ _))
        simpa [hgeq] using this

end InfiniteScroll


namespace InfiniteScroll

/-- Lookup in a table with an explicit head entry. -/
theorem freqGet_cons (a : String) (n : Nat) (u : String) (t : List (String × Nat)) :
    freqGet ((a, n) :: t) u = if a = u then n else freqGet t u := by
  by_cases h : a = u
  · simp [freqGet, List.find?_cons_of_pos, h]
  · have hb : ¬((a, n).1 == u) = true := by simpa using h
    simp [freqGet, List.find?_cons_of_neg _ hb, h]

/-- Bumping key k in place leaves every other key's count unchanged. -/
theorem freqGet_map_bumpKey (u k : String) (hne : u ≠ k) :
    ∀ t : List (String × Nat),
      freqGet (t.map (fun e => if e.1 == k then (e.1, e.2 + 1) else e)) u = freqGet t u := by
  intro t
  induction t with
  | nil => rfl
  | cons e t ih =>
    obtain ⟨a, n⟩ := e
    by_cases hak : a = k
    · have hb : ((a, n).1 == k) = true := by simpa using hak
      have hau : a ≠ u := fun he => hne (he ▸ hak)
      simp only [List.map]
      rw [if_pos hb, freqGet_cons, freqGet_cons, if_neg hau, if_neg hau, ih]
    · have hb : ¬((a, n).1 == k) = true := by simpa using hak
      simp only [List.map]
      rw [if_neg hb]
      by_cases hau : a = u
      · rw [freqGet_cons, freqGet_cons, if_pos hau, if_pos hau]
      · rw [freqGet_cons, freqGet_cons, if_neg hau, if_neg hau, ih]

/-- Bumping key k in place adds one to its count when the key is present. -/
theorem freqGet_map_bumpKey_self (k : String) :
    ∀ t : List (String × Nat), (t.find? (fun e => e.1 == k)).isSome →
      freqGet (t.map (fun e => if e.1 == k then (e.1, e.2 + 1) else e)) k = freqGet t k + 1 := by
  intro t
  induction t with
  | nil => intro h; simp [List.find?] at h
  | cons e t ih =>
    obtain ⟨a, n⟩ := e
    intro hsome
    by_cases hak : a = k
    · have hb : ((a, n).1 == k) = true := by simpa using hak
      simp only [List.map, hb, if_pos, ite_true]
      rw [freqGet_cons, freqGet_cons, if_pos hak, if_pos hak]
    · have hb : ¬((a, n).1 == k) = true := by simpa using hak
      have hsome' : (t.find? (fun e => e.1 == k)).isSome := by
        have hstep : List.find? (fun e => e.1 == k) ((a, n) :: t) =
            List.find? (fun e => e.1 == k) t := by
          simp [List.find?_cons, hb]
        rwa [hstep] at hsome
      simp only [List.map]
      rw [if_neg hb, freqGet_cons, freqGet_cons, if_neg hak, if_neg hak, ih hsome']

/-- A key absent from the table counts zero. -/
theorem freqGet_eq_zero_of_find?_none (k : String) (t : List (String × Nat))
    (h : t.find? (fun e => e.1 == k) = none) : freqGet t k = 0 := by
  simp [freqGet, h]

/-- Effect of one dict bump on lookups. -/
theorem freqGet_freqBump (t : List (String × Nat)) (k u : String) :
    freqGet (freqBump t k) u = if u = k then freqGet t k + 1 else freqGet t u := by
  by_cases hsome : (t.find? (fun e => e.1 == k)).isSome
  · have hb : freqBump t k = t.map (fun e => if e.1 == k then (e.1, e.2 + 1) else e) := by
      simp [freqBump, hsome]
    rw [hb]
    by_cases huk : u = k
    · rw [if_pos huk, huk]
      exact freqGet_map_bumpKey_self k t hsome
    · rw [if_neg huk]
      exact freqGet_map_bumpKey u k huk t
  · have hnone : t.find? (fun e => e.1 == k) = none :=
      Option.not_isSome_iff_eq_none.mp hsome
    have hb : freqBump t k = t ++ [(k, 1)] := by
      simp [freqBump, hnone]
    rw [hb]
    by_cases huk : u = k
    · rw [if_pos huk, huk]
      have h2 : List.find? (fun e => e.1 == k) [(k, 1)] = some (k, 1) := by
        simp [List.find?]
      have hnu : freqGet t k = 0 := freqGet_eq_zero_of_find?_none k t hnone
      simp [freqGet, List.find?_append, hnone, h2, hnu]
    · rw [if_neg huk]
      have hb2 : ¬((k, 1).1 == u) = true := by simpa using fun he => huk he.symm
      have h2 : List.find? (fun e => e.1 == u) [(k, 1)] = none := by
        simp [List.find?, hb2]
      simp [freqGet, List.find?_append, h2]

/-- The frequency loop adds the number of occurrences of each link in the
extracted list, duplicates included. -/
theorem freqGet_freqBumpAll (u : String) :
    ∀ (hs : List String) (t : List (String × Nat)),
      freqGet (freqBumpAll t hs) u = freqGet t u + hs.count u := by
  intro hs
  induction hs with
  | nil => intro t; simp [freqBumpAll]
  | cons h hs ih =>
    intro t
    show freqGet (freqBumpAll (freqBump t h) hs) u = _
    rw [ih, freqGet_freqBump]
    by_cases huh : u = h
    · subst huh
      simp [List.count_cons]
      omega
    · have : ¬(h == u) = true := by simpa using fun he => huh he.symm
      simp [List.count_cons, huh, this]

end InfiniteScroll

namespace InfiniteScroll

/-- With duplicate-free keys, find? locates exactly the stored entry. -/
theorem find?_eq_of_mem_nodup :
    ∀ (t : List (String × Nat)) (u : String) (n : Nat), (u, n) ∈ t →
      (t.map Prod.fst).Nodup → t.find? (fun e => e.1 == u) = some (u, n) := by
  intro t
  induction t with
  | nil => intro u n hmem; simp at hmem
  | cons e t ih =>
    obtain ⟨a, m⟩ := e
    intro u n hmem hnd
    rcases List.mem_cons.mp hmem with heq | htail
    · cases heq
      simp [List.find?]
    · have hnd' : a ∉ t.map Prod.fst ∧ (t.map Prod.fst).Nodup := by
        rw [List.map_cons] at hnd
        exact List.nodup_cons.mp hnd
      by_cases hau : a = u
      · exfalso
        have : u ∈ t.map Prod.fst := List.mem_map.mpr ⟨(u, n), htail, rfl⟩
        exact hnd'.1 (hau ▸ this)
      · have hb : ¬((a, m).1 == u) = true := by simpa using hau
        have hstep : List.find? (fun e => e.1 == u) ((a, m) :: t) =
            List.find? (fun e => e.1 == u) t := by
          simp [List.find?_cons, hb]
        rw [hstep]
        exact ih u n htail hnd'.2

/-- Membership in the computed global-link set is exactly a frequency of at
least freqLimit - 1, when the table keys are duplicate-free and the
sampling constant is at least 2. -/
theorem mem_computeGlobal_iff (t : List (String × Nat)) (K : Nat) (u : String)
    (hK : 2 ≤ K) (hnd : (t.map Prod.fst).Nodup) :
    u ∈ computeGlobal t K ↔ K - 1 ≤ freqGet t u := by
  constructor
  · intro hmem
    obtain ⟨e, hef, heu⟩ := List.mem_map.mp hmem
    have hft := List.mem_filter.mp hef
    obtain ⟨a, n⟩ := e
    cases heu
    have hfind := find?_eq_of_mem_nodup t a n hft.1 hnd
    have : freqGet t a = n := by simp [freqGet, hfind]
    rw [this]
    simpa using hft.2
  · intro hge
    cases hfind : t.find? (fun e => e.1 == u) with
    | none =>
      exfalso
      have : freqGet t u = 0 := freqGet_eq_zero_of_find?_none u t hfind
      omega
    | some e =>
      obtain ⟨a, n⟩ := e
      have hmem : (a, n) ∈ t := List.mem_of_find?_eq_some hfind
      have hau : a = u := by
        have := List.find?_some hfind
        simpa using this
      have hval : freqGet t u = n := by simp [freqGet, hfind]
      refine List.mem_map.mpr ⟨(a, n), List.mem_filter.mpr ⟨hmem, ?_⟩, hau⟩
      simp
      omega

/-- The keys of the frequency table stay duplicate-free under a bump. -/
theorem freqKeys_nodup_freqBump (t : List (String × Nat)) (k : String)
    (hnd : (t.map Prod.fst).Nodup) : ((freqBump t k).map Prod.fst).Nodup := by
  by_cases hsome : (t.find? (fun e => e.1 == k)).isSome
  · have hb : freqBump t k = t.map (fun e => if e.1 == k then (e.1, e.2 + 1) else e) := by
      simp [freqBump, hsome]
    have hkeys : (freqBump t k).map Prod.fst = t.map Prod.fst := by
      rw [hb, List.map_map]
      refine List.map_congr_left ?_
      intro e _
      by_cases hek : e.1 = k <;> simp [hek]
    rw [hkeys]
    exact hnd
  · have hnone : t.find? (fun e => e.1 == k) = none :=
      Option.not_isSome_iff_eq_none.mp hsome
    have hb : freqBump t k = t ++ [(k, 1)] := by
      simp [freqBump, hnone]
    rw [hb, List.map_append]
    simp only [List.map]
    refine List.Nodup.append hnd (List.nodup_singleton k) ?_
    intro x hx hk
    simp at hk
    subst hk
    obtain ⟨e, het, hek⟩ := List.mem_map.mp hx
    have := List.find?_eq_none.mp hnone e het
    simp [hek] at this

/-- The keys of the frequency table stay duplicate-free under the whole
per-page bump loop. -/
theorem freqKeys_nodup_freqBumpAll :
    ∀ (hs : List String) (t : List (String × Nat)),
      (t.map Prod.fst).Nodup → ((freqBumpAll t hs).map Prod.fst).Nodup := by
  intro hs
  induction hs with
  | nil => intro t h; exact h
  | cons h hs ih =>
    intro t hnd
    exact ih (freqBump t h) (freqKeys_nodup_freqBump t h hnd)

/-- The crawl run keeps the frequency-table keys duplicate-free. -/
theorem run_freq_nodup (nav : String → Option (List String)) (mp K : Nat) :
    ∀ (fuel : Nat) (s : CState), (s.link_freq.map Prod.fst).Nodup →
      ((run nav mp K fuel s).1.link_freq.map Prod.fst).Nodup := by
  intro fuel
  induction fuel with
  | zero => intro s h; exact h
  | succ n ih =>
    intro s hnd
    rw [run_succ]
    cases hstep : step nav mp K s with
    | none => exact hnd
    | some r =>
      obtain ⟨s', evs⟩ := r
      refine ih s' ?_
      obtain ⟨-, w, rest, -, hbr⟩ := step_cases hstep
      rcases hbr with ⟨-, rfl, -⟩ | ⟨-, -, rfl, -⟩ |
        ⟨-, hrefs, f', g', fr', -, hf, -, -, rfl, -⟩
      · exact hnd
      · exact hnd
      · show (f'.map Prod.fst).Nodup
        rw [hf]
        split
        · exact freqKeys_nodup_freqBumpAll hrefs s.link_freq hnd
        · exact hnd

end InfiniteScroll

/-! ## Claim C1: at-most-once processing in the frontier -/

/-- Claim C1 counterexample (status corrected).  In crawl_and_record of
crawl_button.py the enqueue filter checks the visited set but not the
queue itself, so with pages A and B both linking to C, the URL C enters
the queue twice before being visited and is dequeued twice — the claim
says a URL enters the queue and is dequeued at most once.  It is still
processed (visited) only once, because duplicates are skipped at
dequeue. -/
theorem c1_counterexample :
    (CrawlButton.run nav1 10 10 (CrawlButton.init "A")).2.count (CrawlEvent.enqueue "C") = 2
    ∧ (CrawlButton.run nav1 10 10 (CrawlButton.init "A")).2.count (CrawlEvent.dequeue "C") = 2
    ∧ (CrawlButton.run nav1 10 10 (CrawlButton.init "A")).2.count (CrawlEvent.visit "C") = 1 := by
  refine ⟨?_, ?_, ?_⟩ <;> decide

/-- Claim C1 amended (status corrected).  In both crawlers a given URL is
processed (marked visited and navigated to) at most once per run, and a
URL that is in the visited set is never visited or enqueued again.  In
the infinite-scroll crawler the queue-membership check also makes every
URL enter the queue at most once; in crawl_button.py a URL may be
enqueued and dequeued several times before its first visit (see the
counterexample), the duplicates being skipped at dequeue. -/
theorem c1_processed_once_amended :
    (∀ nav mp fuel s u,
      (CrawlButton.run nav mp fuel s).2.count (CrawlEvent.visit u) ≤ 1)
    ∧ (∀ nav mp fuel s u, u ∈ s.visited →
      (CrawlButton.run nav mp fuel s).2.count (CrawlEvent.visit u) = 0
      ∧ (CrawlButton.run nav mp fuel s).2.count (CrawlEvent.enqueue u) = 0)
    ∧ (∀ nav mp K fuel s u,
      (InfiniteScroll.run nav mp K fuel s).2.count (CrawlEvent.visit u) ≤ 1)
    ∧ (∀ nav mp K fuel s u, u ∈ s.visited →
      (InfiniteScroll.run nav mp K fuel s).2.count (CrawlEvent.visit u) = 0
      ∧ (InfiniteScroll.run nav mp K fuel s).2.count (CrawlEvent.enqueue u) = 0)
    ∧ (∀ nav mp K fuel s u,
      (InfiniteScroll.run nav mp K fuel s).2.count (CrawlEvent.enqueue u) ≤ 1) := by
  refine ⟨?_, ?_, ?_, ?_, ?_⟩
  · intro nav mp fuel s u
    exact CrawlButton.cb_run_visit_at_most_once nav mp fuel s u
  · intro nav mp fuel s u hu
    obtain ⟨h1, h2, -⟩ := CrawlButton.cb_run_visited_permanent nav mp fuel s u hu
    exact ⟨h1, h2⟩
  · intro nav mp K fuel s u
    exact InfiniteScroll.run_visit_at_most_once nav mp K fuel s u
  · intro nav mp K fuel s u hu
    obtain ⟨h1, h2, -⟩ := InfiniteScroll.run_visited_permanent nav mp K fuel s u hu
    exact ⟨h1, h2⟩
  · intro nav mp K fuel s u
    exact InfiniteScroll.run_enqueue_at_most_once nav mp K fuel s u

/-- Witness for c1_processed_once_amended: a URL already visited is never
visited nor enqueued again on the concrete nav1 crawl. -/
theorem c1_processed_once_amended_witness :
    (CrawlButton.run nav1 10 5 { visited := ["A"], frontier := ["B"],
                                  pages_visited := 1 }).2.count (CrawlEvent.visit "A") = 0
    ∧ (CrawlButton.run nav1 10 5 { visited := ["A"], frontier := ["B"],
                                    pages_visited := 1 }).2.count (CrawlEvent.enqueue "A") = 0 :=
  c1_processed_once_amended.2.1 nav1 10 5
    { visited := ["A"], frontier := ["B"], pages_visited := 1 } "A" (by decide)

/-! ## Claim C10: visited and counted before navigation -/

/-- Claim C10 (status confirmed).  In both crawl loops, whenever a
navigation attempt happens (a navOk or navFail event), the URL was freshly
dequeued, is already in the resulting visited set, and the page-visit
counter has already been incremented — so a page whose navigation fails
still consumes one unit of the budget and is permanently marked visited,
and a visited URL is never visited or enqueued again for the rest of the
run. -/
theorem c10_visited_and_counted_before_navigation :
    (∀ nav mp s s' evs u, CrawlButton.step nav mp s = some (s', evs) →
      (CrawlEvent.navOk u ∈ evs ∨ CrawlEvent.navFail u ∈ evs) →
      u ∈ s'.visited ∧ s'.pages_visited = s.pages_visited + 1
      ∧ CrawlEvent.visit u ∈ evs ∧ u ∉ s.visited)
    ∧ (∀ nav mp K s s' evs u, InfiniteScroll.step nav mp K s = some (s', evs) →
      (CrawlEvent.navOk u ∈ evs ∨ CrawlEvent.navFail u ∈ evs) →
      u ∈ s'.visited ∧ s'.pages_visited = s.pages_visited + 1
      ∧ CrawlEvent.visit u ∈ evs ∧ u ∉ s.visited)
    ∧ (∀ nav mp fuel s u, u ∈ s.visited →
      u ∈ (CrawlButton.run nav mp fuel s).1.visited
      ∧ (CrawlButton.run nav mp fuel s).2.count (CrawlEvent.visit u) = 0
      ∧ (CrawlButton.run nav mp fuel s).2.count (CrawlEvent.enqueue u) = 0)
    ∧ (∀ nav mp K fuel s u, u ∈ s.visited →
      u ∈ (InfiniteScroll.run nav mp K fuel s).1.visited
      ∧ (InfiniteScroll.run nav mp K fuel s).2.count (CrawlEvent.visit u) = 0
      ∧ (InfiniteScroll.run nav mp K fuel s).2.count (CrawlEvent.enqueue u) = 0) := by
  refine ⟨?_, ?_, ?_, ?_⟩
  · intro nav mp s s' evs u hstep hev
    obtain ⟨-, w, rest, -, hbr⟩ := CrawlButton.cb_step_cases hstep
    rcases hbr with ⟨hsk, rfl, rfl⟩ | ⟨hsk, -, rfl, rfl⟩ | ⟨hsk, links, -, rfl, rfl⟩
    · rcases hev with h | h <;> simp at h
    · have huw : u = w := by
        rcases hev with h | h <;> simp at h
        exact h
      subst huw
      exact ⟨by simp, rfl, by simp, fun hu => hsk (Or.inr hu)⟩
    · have huw : u = w := by
        rcases hev with h | h <;> simp at h
        exact h
      subst huw
      exact ⟨by simp, rfl, by simp, fun hu => hsk (Or.inr hu)⟩
  · intro nav mp K s s' evs u hstep hev
    obtain ⟨-, w, rest, -, hbr⟩ := InfiniteScroll.step_cases hstep
    rcases hbr with ⟨hsk, rfl, rfl⟩ | ⟨hsk, -, rfl, rfl⟩ |
      ⟨hsk, hrefs, f', g', fr', -, -, -, -, rfl, rfl⟩
    · rcases hev with h | h <;> simp at h
    · have huw : u = w := by
        rcases hev with h | h <;> simp at h
        exact h
      subst huw
      exact ⟨by simp, rfl, by simp, hsk⟩
    · have huw : u = w := by
        have hclean : ∀ x : CrawlEvent,
            x ∈ List.drop rest.length (List.map CrawlEvent.enqueue fr') →
            ∀ v : String, x ≠ CrawlEvent.navOk v ∧ x ≠ CrawlEvent.navFail v := by
          intro x hx v
          obtain ⟨a, -, ha⟩ := List.mem_map.mp (List.mem_of_mem_drop hx)
          cases ha
          exact ⟨fun hc => CrawlEvent.noConfusion hc, fun hc => CrawlEvent.noConfusion hc⟩
        rcases hev with h | h
        · simp at h
          rcases h with h | h
          · exact h
          · exact absurd rfl (hclean _ h u).1
        · simp at h
          exact absurd rfl (hclean _ h u).2
      subst huw
      exact ⟨by simp, rfl, by simp, hsk⟩
  · intro nav mp fuel s u hu
    obtain ⟨h1, h2, h3⟩ := CrawlButton.cb_run_visited_permanent nav mp fuel s u hu
    exact ⟨h3, h1, h2⟩
  · intro nav mp K fuel s u hu
    obtain ⟨h1, h2, h3⟩ := InfiniteScroll.run_visited_permanent nav mp K fuel s u hu
    exact ⟨h3, h1, h2⟩

/-- Witness for c10_visited_and_counted_before_navigation on a concrete
failing navigation: page D of nav2 fails to load, yet is visited and
counted. -/
theorem c10_visited_and_counted_before_navigation_witness :
    "D" ∈ ({ visited := ["D", "C"], frontier := [], link_freq := [],
             global_links := [], pages_visited := 5 } : InfiniteScroll.CState).visited
    ∧ ({ visited := ["D", "C"], frontier := [], link_freq := [],
         global_links := [], pages_visited := 5 } : InfiniteScroll.CState).pages_visited
        = ({ visited := ["C"], frontier := ["D"], link_freq := [],
             global_links := [], pages_visited := 4 } : InfiniteScroll.CState).pages_visited + 1
    ∧ CrawlEvent.visit "D" ∈ [CrawlEvent.dequeue "D", CrawlEvent.visit "D",
                              CrawlEvent.navFail "D"]
    ∧ "D" ∉ (["C"] : List String) :=
  c10_visited_and_counted_before_navigation.2.1 nav2 20 5
    { visited := ["C"], frontier := ["D"], link_freq := [],
      global_links := [], pages_visited := 4 }
    { visited := ["D", "C"], frontier := [], link_freq := [],
      global_links := [], pages_visited := 5 }
    [CrawlEvent.dequeue "D", CrawlEvent.visit "D", CrawlEvent.navFail "D"]
    "D" (by decide) (Or.inr (by decide))

/-! ## Claim C4: the one-shot global-link computation -/

/-- Claim C4 counterexample (status corrected).  With nav2, the link L
occurs on the four pages that load, so its count reaches 4 = K - 1 + 1
... but the fifth visited page D fails to load, and the continue of the
except branch skips the one-shot computation, which is never executed on
any later iteration.  After five visited pages the global-link set is
still empty even though freqGet gives L the count 4 ≥ K - 1 — the claim
says the set is computed exactly once, immediately after the K-th page is
visited. -/
theorem c4_counterexample :
    (InfiniteScroll.run nav2 20 5 20 (InfiniteScroll.init "A")).1.pages_visited = 5
    ∧ (InfiniteScroll.run nav2 20 5 20 (InfiniteScroll.init "A")).1.global_links = []
    ∧ InfiniteScroll.freqGet
        (InfiniteScroll.run nav2 20 5 20 (InfiniteScroll.init "A")).1.link_freq "L" = 4
    ∧ InfiniteScroll.computeGlobal
        (InfiniteScroll.run nav2 20 5 20 (InfiniteScroll.init "A")).1.link_freq 5 = ["L"]
    ∧ nav2 "D" = none := by
  refine ⟨?_, ?_, ?_, ?_, ?_⟩ <;> decide

/-- Claim C4 amended (status corrected).  The global-link set is empty at
every point before the page counter reaches K; it never changes once the
counter has reached K; and it is computed (as the links of count at least
K - 1) exactly in the iteration whose successful navigation makes the
counter reach K.  If that K-th visited page fails to load — or the
frontier is exhausted earlier — the set remains empty forever. -/
theorem c4_global_once_amended :
    (∀ nav mp K fuel s,
      (s.pages_visited < K → s.global_links = []) →
      ((InfiniteScroll.run nav mp K fuel s).1.pages_visited < K →
        (InfiniteScroll.run nav mp K fuel s).1.global_links = []))
    ∧ (∀ nav mp K fuel s, K ≤ s.pages_visited →
        (InfiniteScroll.run nav mp K fuel s).1.global_links = s.global_links)
    ∧ (∀ nav mp K s s' evs u rest hrefs,
        InfiniteScroll.step nav mp K s = some (s', evs) →
        s.frontier = u :: rest → u ∉ s.visited → nav u = some hrefs →
        s.pages_visited + 1 = K →
        s'.global_links =
          InfiniteScroll.computeGlobal
            (InfiniteScroll.freqBumpAll s.link_freq hrefs) K)
    ∧ (∀ nav mp K s s' evs u rest,
        InfiniteScroll.step nav mp K s = some (s', evs) →
        s.frontier = u :: rest → u ∉ s.visited → nav u = none →
        s'.global_links = s.global_links ∧ s'.link_freq = s.link_freq) := by
  refine ⟨?_, ?_, ?_, ?_⟩
  · intro nav mp K fuel s h
    exact InfiniteScroll.run_global_empty nav mp K fuel s h
  · intro nav mp K fuel s h
    exact InfiniteScroll.run_global_frozen nav mp K fuel s h
  · intro nav mp K s s' evs u rest hrefs hstep hfront hvis hnav hK
    obtain ⟨-, w, rest2, hfr2, hbr⟩ := InfiniteScroll.step_cases hstep
    rw [hfront] at hfr2
    obtain ⟨rfl, rfl⟩ : w = u ∧ rest2 = rest := by
      exact ⟨(List.cons.injEq _ _ _ _ ▸ hfr2).1.symm, (List.cons.injEq _ _ _ _ ▸ hfr2).2.symm⟩
    rcases hbr with ⟨hsk, -, -⟩ | ⟨-, hnone, -, -⟩ |
      ⟨-, hrefs2, f', g', fr', hnv, hf, hg, -, rfl, -⟩
    · exact absurd hsk hvis
    · rw [hnav] at hnone
      exact Option.noConfusion hnone
    · rw [hnav] at hnv
      cases hnv
      show g' = _
      rw [hg, if_pos ⟨Nat.le_of_eq hK, hK⟩, hf, if_pos (Nat.le_of_eq hK)]
  · intro nav mp K s s' evs u rest hstep hfront hvis hnav
    obtain ⟨-, w, rest2, hfr2, hbr⟩ := InfiniteScroll.step_cases hstep
    rw [hfront] at hfr2
    obtain ⟨rfl, rfl⟩ : w = u ∧ rest2 = rest := by
      exact ⟨(List.cons.injEq _ _ _ _ ▸ hfr2).1.symm, (List.cons.injEq _ _ _ _ ▸ hfr2).2.symm⟩
    rcases hbr with ⟨hsk, -, -⟩ | ⟨-, -, rfl, -⟩ |
      ⟨-, hrefs2, f', g', fr', hnv, -, -, -, -, -⟩
    · exact absurd hsk hvis
    · exact ⟨rfl, rfl⟩
    · rw [hnav] at hnv
      exact Option.noConfusion hnv

/-- Witness for c4_global_once_amended: the computation fires exactly when
page 1 of the K = 1 sampling window loads. -/
theorem c4_global_once_amended_witness :
    ({ visited := ["A"], frontier := [], link_freq := [("B", 1), ("L", 1)],
       global_links := ["B", "L"], pages_visited := 1 } : InfiniteScroll.CState).global_links
      = InfiniteScroll.computeGlobal
          (InfiniteScroll.freqBumpAll (InfiniteScroll.init "A").link_freq ["B", "L"]) 1 :=
  c4_global_once_amended.2.2.1 nav2 20 1 (InfiniteScroll.init "A")
    { visited := ["A"], frontier := [], link_freq := [("B", 1), ("L", 1)],
      global_links := ["B", "L"], pages_visited := 1 }
    [CrawlEvent.dequeue "A", CrawlEvent.visit "A", CrawlEvent.navOk "A"]
    "A" [] ["B", "L"] (by decide) rfl (by decide) (by decide) rfl

/-! ## Claim C5: the link-frequency table -/

/-- Claim C5 counterexample (status corrected).  With nav3, page A holds
two anchors whose hrefs normalize to the same link L; the counting loop
bumps the table once per occurrence, so L counts 2 even though only one
distinct visited page contained it — the claim says a link occurring
several times on one page contributes one. -/
theorem c5_counterexample :
    InfiniteScroll.freqGet
      (InfiniteScroll.run nav3 20 5 20 (InfiniteScroll.init "A")).1.link_freq "L" = 2
    ∧ ((InfiniteScroll.run nav3 20 5 20 (InfiniteScroll.init "A")).1.visited.filter
        (fun p => "L" ∈ ((nav3 p).getD []))).length = 1 := by
  refine ⟨?_, ?_⟩ <;> decide

/-- Claim C5 amended (status corrected).  The frequency table counts every
occurrence of a link in the extracted href lists of the successfully
loaded pages among the first K (duplicates on one page all count); the
global-link set computed from a table with duplicate-free keys — an
invariant of every run — is exactly the set of links whose count is at
least K - 1. -/
theorem c5_frequency_amended :
    (∀ (hs : List String) (t : List (String × Nat)) (u : String),
      InfiniteScroll.freqGet (InfiniteScroll.freqBumpAll t hs) u =
        InfiniteScroll.freqGet t u + hs.count u)
    ∧ (∀ (t : List (String × Nat)) (K : Nat) (u : String), 2 ≤ K →
        (t.map Prod.fst).Nodup →
        (u ∈ InfiniteScroll.computeGlobal t K ↔
          K - 1 ≤ InfiniteScroll.freqGet t u))
    ∧ (∀ nav mp K fuel seed,
        (((InfiniteScroll.run nav mp K fuel
            (InfiniteScroll.init seed)).1.link_freq).map Prod.fst).Nodup)
    ∧ (∀ nav mp K s s' evs u rest hrefs v,
        InfiniteScroll.step nav mp K s = some (s', evs) →
        s.frontier = u :: rest → u ∉ s.visited → nav u = some hrefs →
        s.pages_visited + 1 ≤ K →
        InfiniteScroll.freqGet s'.link_freq v =
          InfiniteScroll.freqGet s.link_freq v + hrefs.count v) := by
  refine ⟨?_, ?_, ?_, ?_⟩
  · intro hs t u
    exact InfiniteScroll.freqGet_freqBumpAll u hs t
  · intro t K u hK hnd
    exact InfiniteScroll.mem_computeGlobal_iff t K u hK hnd
  · intro nav mp K fuel seed
    exact InfiniteScroll.run_freq_nodup nav mp K fuel _ (by simp [InfiniteScroll.init])
  · intro nav mp K s s' evs u rest hrefs v hstep hfront hvis hnav hle
    obtain ⟨-, w, rest2, hfr2, hbr⟩ := InfiniteScroll.step_cases hstep
    rw [hfront] at hfr2
    obtain ⟨rfl, rfl⟩ : w = u ∧ rest2 = rest := by
      exact ⟨(List.cons.injEq _ _ _ _ ▸ hfr2).1.symm, (List.cons.injEq _ _ _ _ ▸ hfr2).2.symm⟩
    rcases hbr with ⟨hsk, -, -⟩ | ⟨-, hnone, -, -⟩ |
      ⟨-, hrefs2, f', g', fr', hnv, hf, -, -, rfl, -⟩
    · exact absurd hsk hvis
    · rw [hnav] at hnone
      exact Option.noConfusion hnone
    · rw [hnav] at hnv
      cases hnv
      show InfiniteScroll.freqGet f' v = _
      rw [hf, if_pos hle]
      exact InfiniteScroll.freqGet_freqBumpAll v hrefs s.link_freq

/-- Witness for c5_frequency_amended on the first loaded page of nav2. -/
theorem c5_frequency_amended_witness :
    InfiniteScroll.freqGet
      ({ visited := ["A"], frontier := ["B", "L"], link_freq := [("B", 1), ("L", 1)],
         global_links := [], pages_visited := 1 } : InfiniteScroll.CState).link_freq "L"
      = InfiniteScroll.freqGet (InfiniteScroll.init "A").link_freq "L"
          + (["B", "L"] : List String).count "L" :=
  c5_frequency_amended.2.2.2 nav2 20 5 (InfiniteScroll.init "A")
    { visited := ["A"], frontier := ["B", "L"], link_freq := [("B", 1), ("L", 1)],
      global_links := [], pages_visited := 1 }
    [CrawlEvent.dequeue "A", CrawlEvent.visit "A", CrawlEvent.navOk "A",
     CrawlEvent.enqueue "B", CrawlEvent.enqueue "L"]
    "A" [] ["B", "L"] "L" (by decide) rfl (by decide) (by decide) (by decide)

/-! ## Infrastructure for C8: splitFirst, span and membership lemmas -/

theorem splitFirst_eq_none_of_forall {p : Char → Bool} {l : Chars}
    (h : ∀ c ∈ l, p c = false) : splitFirst p l = none := by
  induction l with
  | nil => rfl
  | cons c cs ih =>
    have hc := h c (List.mem_cons_self c cs)
    have ht := ih (fun x hx => h x (List.mem_cons_of_mem c hx))
    simp [splitFirst, hc, ht]

theorem forall_of_splitFirst_eq_none {p : Char → Bool} {l : Chars}
    (h : splitFirst p l = none) : ∀ c ∈ l, p c = false := by
  induction l with
  | nil => intro c hc; cases hc
  | cons x xs ih =>
    by_cases hx : p x = true
    · simp [splitFirst, hx] at h
    · rw [splitFirst, if_neg (by simpa using hx)] at h
      intro c hc
      rcases List.mem_cons.mp hc with rfl | hm
      · exact Bool.eq_false_iff.mpr hx
      · exact ih (Option.map_eq_none'.mp h) c hm

theorem splitFirst_eq_some {p : Char → Bool} {l a b : Chars}
    (h : splitFirst p l = some (a, b)) :
    (∀ x ∈ a, p x = false) ∧ ∃ c, p c = true ∧ l = a ++ c :: b := by
  induction l generalizing a b with
  | nil => cases h
  | cons x xs ih =>
    by_cases hx : p x = true
    · rw [splitFirst, if_pos hx] at h
      obtain ⟨rfl, rfl⟩ : [] = a ∧ xs = b := by
        simpa [Prod.ext_iff] using Option.some.inj h
      exact ⟨fun y hy => absurd hy (List.not_mem_nil y), x, hx, rfl⟩
    · rw [splitFirst, if_neg (by simpa using hx)] at h
      cases hsf : splitFirst p xs with
      | none => rw [hsf] at h; cases h
      | some ab =>
        rw [hsf] at h
        obtain ⟨h1, h2⟩ : x :: ab.1 = a ∧ ab.2 = b := by
          simpa [Prod.ext_iff] using Option.some.inj h
        obtain ⟨hfa, c, hc, hsplit⟩ := ih (a := ab.1) (b := ab.2) (by rw [hsf])
        subst h1; subst h2
        refine ⟨?_, c, hc, by simp [hsplit]⟩
        intro y hy
        rcases List.mem_cons.mp hy with rfl | hm
        · exact Bool.eq_false_iff.mpr hx
        · exact hfa y hm

theorem splitFirst_append_sat {p : Char → Bool} {c : Char} (hc : p c = true) :
    ∀ (a b : Chars), (∀ x ∈ a, p x = false) → splitFirst p (a ++ c :: b) = some (a, b) := by
  intro a
  induction a with
  | nil => intro b _; simp [splitFirst, hc]
  | cons x xs ih =>
    intro b hfa
    have hx := hfa x (List.mem_cons_self x xs)
    have ht := ih b (fun y hy => hfa y (List.mem_cons_of_mem x hy))
    simp [splitFirst, hx, ht]

theorem splitFirst_append_left {p : Char → Bool} {a a₁ a₂ : Chars}
    (h : splitFirst p a = some (a₁, a₂)) (t : Chars) :
    splitFirst p (a ++ t) = some (a₁, a₂ ++ t) := by
  obtain ⟨hfa, c, hc, hsplit⟩ := splitFirst_eq_some h
  subst hsplit
  rw [List.append_assoc]
  exact splitFirst_append_sat hc a₁ (a₂ ++ t) hfa

theorem takeWhile_dropWhile_append_stop {p : Char → Bool} {t : Chars} (sfx : Chars)
    (h : t.dropWhile p ≠ []) :
    (t ++ sfx).takeWhile p = t.takeWhile p ∧
      (t ++ sfx).dropWhile p = t.dropWhile p ++ sfx := by
  induction t with
  | nil => exact absurd rfl h
  | cons x xs ih =>
    by_cases hx : p x = true
    · have hxs : xs.dropWhile p ≠ [] := by
        rw [List.dropWhile_cons, if_pos hx] at h; exact h
      obtain ⟨h1, h2⟩ := ih hxs
      constructor
      · simp [List.takeWhile_cons, hx, h1]
      · simp [List.dropWhile_cons, hx, h2]
    · simp [List.takeWhile_cons, List.dropWhile_cons, hx]

theorem takeWhile_dropWhile_append_all {p : Char → Bool} {t : Chars} (sfx : Chars)
    (h : ∀ x ∈ t, p x = true) :
    (t ++ sfx).takeWhile p = t ++ sfx.takeWhile p ∧
      (t ++ sfx).dropWhile p = sfx.dropWhile p := by
  induction t with
  | nil => simp
  | cons x xs ih =>
    have hx := h x (List.mem_cons_self x xs)
    obtain ⟨h1, h2⟩ := ih (fun y hy => h y (List.mem_cons_of_mem x hy))
    constructor
    · simp [List.takeWhile_cons, hx, h1]
    · simp [List.dropWhile_cons, hx, h2]

theorem dropWhile_eq_self_of_head {p : Char → Bool} {l : Chars}
    (h : l = [] ∨ p (l.headD ' ') = false) : l.dropWhile p = l := by
  cases l with
  | nil => rfl
  | cons x xs =>
    rcases h with h | h
    · cases h
    · simp only [List.headD] at h
      rw [List.dropWhile_cons, if_neg (by simp [h])]

theorem takeWhile_eq_nil_of_head {p : Char → Bool} {l : Chars}
    (h : l = [] ∨ p (l.headD ' ') = false) : l.takeWhile p = [] := by
  cases l with
  | nil => rfl
  | cons x xs =>
    rcases h with h | h
    · cases h
    · simp only [List.headD] at h
      rw [List.takeWhile_cons, if_neg (by simp [h])]

theorem headD_dropWhile_false {p : Char → Bool} {l : Chars} (d : Char)
    (h : l.dropWhile p ≠ []) : p ((l.dropWhile p).headD d) = false := by
  induction l with
  | nil => exact absurd rfl h
  | cons x xs ih =>
    by_cases hx : p x = true
    · rw [List.dropWhile_cons, if_pos hx] at h ⊢
      exact ih h
    · rw [List.dropWhile_cons, if_neg (by simpa using hx)]
      simpa using Bool.eq_false_iff.mpr hx

theorem mem_of_mem_dropWhile {p : Char → Bool} {l : Chars} {c : Char}
    (h : c ∈ l.dropWhile p) : c ∈ l :=
  (List.dropWhile_suffix p).subset h

theorem mem_of_mem_takeWhile {p : Char → Bool} {l : Chars} {c : Char}
    (h : c ∈ l.takeWhile p) : c ∈ l :=
  (List.takeWhile_prefix p).subset h

theorem contains_eq_false_of_forall {l : Chars} {c : Char}
    (h : ∀ x ∈ l, (x == c) = false) : l.contains c = false := by
  rw [Bool.eq_false_iff]
  intro hc
  have hm : c ∈ l := List.elem_iff.mp hc
  simpa using h c hm

theorem splitLast_eq_some {p : Char → Bool} {l a b : Chars}
    (h : splitLast p l = some (a, b)) :
    (∀ x ∈ b, p x = false) ∧ ∃ c, p c = true ∧ l = a ++ c :: b := by
  unfold splitLast at h
  cases hsf : splitFirst p l.reverse with
  | none => rw [hsf] at h; cases h
  | some xy =>
    rw [hsf] at h
    obtain ⟨h1, h2⟩ : xy.2.reverse = a ∧ xy.1.reverse = b := by
      simpa [Prod.ext_iff] using Option.some.inj h
    obtain ⟨hfa, c, hc, hsplit⟩ := splitFirst_eq_some (l := l.reverse)
      (a := xy.1) (b := xy.2) (by rw [hsf])
    refine ⟨?_, c, hc, ?_⟩
    · intro x hx
      exact hfa x (by rw [← h2] at hx; exact List.mem_reverse.mp hx)
    · have : l.reverse.reverse = (xy.1 ++ c :: xy.2).reverse := by rw [hsplit]
      rw [List.reverse_reverse] at this
      rw [this, List.reverse_append, List.reverse_cons, h1, h2]
      simp

/-- Facts about the 65 scheme characters, used for the urlsplit roundtrip:
lowercasing keeps a character in the class, is idempotent, preserves
being alphabetic, and never produces a colon, an unsafe byte or a
C0-control-or-space character. -/
theorem schemeChar_props {c : Char} (h : schemeChars.contains c = true) :
    schemeChars.contains c.toLower = true ∧ c.toLower.toLower = c.toLower ∧
      c.toLower.isAlpha = c.isAlpha ∧ (c.toLower == ':') = false ∧
      isUnsafeByte c.toLower = false ∧ isC0OrSpace c.toLower = false := by
  have hm : c ∈
      (("abcdefghijklmnopqrstuvwxyzABCDEFGHIJKLMNOPQRSTUVWXYZ0123456789+-.").toList :
        List Char) := List.elem_iff.mp h
  fin_cases hm <;> decide

theorem headD_map_toLower {l : Chars} (hne : l ≠ []) (d e : Char) :
    (l.map Char.toLower).headD d = (l.headD e).toLower := by
  cases l with
  | nil => exact absurd rfl hne
  | cons x xs => rfl

theorem mem_sanitize {l : Chars} {c : Char} (h : c ∈ sanitize l) : c ∈ l :=
  mem_of_mem_dropWhile (List.mem_filter.mp h).1

theorem sanitize_clean {l : Chars} {c : Char} (h : c ∈ sanitize l) :
    isUnsafeByte c = false := by
  have := (List.mem_filter.mp h).2
  simpa using this

theorem sanitize_eq_self {l : Chars}
    (hcl : ∀ c ∈ l, isUnsafeByte c = false)
    (hh : l = [] ∨ isC0OrSpace (l.headD ' ') = false) : sanitize l = l := by
  unfold sanitize
  rw [dropWhile_eq_self_of_head hh]
  exact List.filter_eq_self.mpr (fun a ha => by simp [hcl a ha])

theorem sanitize_append_of_stop {r : Chars} (sfx : Chars)
    (h : r.dropWhile isC0OrSpace ≠ []) :
    sanitize (r ++ sfx) = sanitize r ++ sfx.filter (fun c => !isUnsafeByte c) := by
  unfold sanitize
  rw [(takeWhile_dropWhile_append_stop sfx h).2, List.filter_append]

theorem sanitize_append_of_nil {r : Chars} (sfx : Chars)
    (h : r.dropWhile isC0OrSpace = [])
    (hs : sfx = [] ∨ isC0OrSpace (sfx.headD ' ') = false) :
    sanitize (r ++ sfx) = sfx.filter (fun c => !isUnsafeByte c) := by
  unfold sanitize
  have hall : ∀ x ∈ r, isC0OrSpace x = true := List.dropWhile_eq_nil_iff.mp h
  rw [(takeWhile_dropWhile_append_all sfx hall).2, dropWhile_eq_self_of_head hs]

/-- urlsplit written as its staged pipeline (let-free form). -/
theorem urlsplit_stages (r : Chars) :
    urlsplit r =
      if ((netlocStage (splitScheme (sanitize r)).2).1.contains '[' ||
          (netlocStage (splitScheme (sanitize r)).2).1.contains ']') = true then none
      else
        some { scheme := (splitScheme (sanitize r)).1,
               netloc := (netlocStage (splitScheme (sanitize r)).2).1,
               path := (querySplit (fragSplit (netlocStage (splitScheme (sanitize r)).2).2).1).1,
               query := (querySplit (fragSplit (netlocStage (splitScheme (sanitize r)).2).2).1).2,
               fragment := (fragSplit (netlocStage (splitScheme (sanitize r)).2).2).2 } := rfl

theorem splitScheme_of_none {l : Chars}
    (h : splitFirst (fun c => c == ':') l = none) : splitScheme l = ([], l) := by
  unfold splitScheme
  rw [h]

theorem splitScheme_some_pos {l pre rest : Chars}
    (hsf : splitFirst (fun c => c == ':') l = some (pre, rest))
    (hch : (!pre.isEmpty && (pre.headD ' ').isAlpha &&
      pre.all (fun c => schemeChars.contains c)) = true) :
    splitScheme l = (pre.map Char.toLower, rest) := by
  unfold splitScheme
  rw [hsf]
  dsimp only
  rw [if_pos hch]

theorem splitScheme_some_neg {l pre rest : Chars}
    (hsf : splitFirst (fun c => c == ':') l = some (pre, rest))
    (hch : (!pre.isEmpty && (pre.headD ' ').isAlpha &&
      pre.all (fun c => schemeChars.contains c)) = false) :
    splitScheme l = ([], l) := by
  unfold splitScheme
  rw [hsf]
  dsimp only
  rw [if_neg (Bool.eq_false_iff.mp hch)]

theorem splitScheme_headD_not_alpha {l : Chars}
    (h : (l.headD ' ').isAlpha = false) : splitScheme l = ([], l) := by
  cases hsf : splitFirst (fun c => c == ':') l with
  | none => exact splitScheme_of_none hsf
  | some pr =>
    obtain ⟨pre, rest⟩ := pr
    obtain ⟨hfa, c, hc, hsplit⟩ := splitFirst_eq_some hsf
    apply splitScheme_some_neg hsf
    cases pre with
    | nil => simp
    | cons x xs =>
      have hx : x = l.headD ' ' := by rw [hsplit]; rfl
      have halpha : ((x :: xs).headD ' ').isAlpha = false := by
        show x.isAlpha = false
        rw [hx]; exact h
      rw [halpha, Bool.and_false, Bool.false_and]

theorem splitScheme_append_rel (a sfx : Chars)
    (hb : splitFirst (fun c => c == ':') a = none →
      splitScheme (a ++ sfx) = ([], a ++ sfx)) :
    ∃ sch r₂, splitScheme a = (sch, r₂) ∧ splitScheme (a ++ sfx) = (sch, r₂ ++ sfx) ∧
      ∀ c ∈ r₂, c ∈ a := by
  cases hsf : splitFirst (fun c => c == ':') a with
  | none => exact ⟨[], a, splitScheme_of_none hsf, hb hsf, fun c hc => hc⟩
  | some pr =>
    obtain ⟨pre, rest⟩ := pr
    have hsf2 := splitFirst_append_left hsf sfx
    obtain ⟨hfa, c, hc, hsplit⟩ := splitFirst_eq_some hsf
    by_cases hch : (!pre.isEmpty && (pre.headD ' ').isAlpha &&
        pre.all (fun c => schemeChars.contains c)) = true
    · refine ⟨pre.map Char.toLower, rest, splitScheme_some_pos hsf hch,
        splitScheme_some_pos hsf2 hch, ?_⟩
      intro x hx
      rw [hsplit]
      exact List.mem_append_right _ (List.mem_cons_of_mem _ hx)
    · have hch2 : (!pre.isEmpty && (pre.headD ' ').isAlpha &&
          pre.all (fun c => schemeChars.contains c)) = false := Bool.eq_false_iff.mpr hch
      exact ⟨[], a, splitScheme_some_neg hsf hch2, splitScheme_some_neg hsf2 hch2,
        fun c hc => hc⟩

theorem splitScheme_hash_block (a f : Chars)
    (hna : splitFirst (fun c => c == ':') a = none) :
    splitScheme (a ++ '#' :: f) = ([], a ++ '#' :: f) := by
  cases hsf : splitFirst (fun c => c == ':') (a ++ '#' :: f) with
  | none => exact splitScheme_of_none hsf
  | some pr =>
    obtain ⟨pre, rest⟩ := pr
    obtain ⟨hfa, c, hc, hsplit⟩ := splitFirst_eq_some hsf
    have hcc : c = ':' := by simpa using hc
    subst hcc
    rcases List.append_eq_append_iff.mp hsplit with ⟨a2, ha2, hbf⟩ | ⟨c2, hc2, hrest⟩
    · cases a2 with
      | nil => simp at hbf
      | cons y t =>
        have hy : y = '#' := by
          rw [List.cons_append] at hbf
          exact (List.cons.injEq _ _ _ _ ▸ hbf).1.symm
        subst hy
        have hmem : '#' ∈ pre := by
          rw [ha2]; exact List.mem_append_right a (List.mem_cons_self _ _)
        have hall : pre.all (fun c => schemeChars.contains c) = false :=
          List.all_eq_false.mpr ⟨'#', hmem, by decide⟩
        exact splitScheme_some_neg hsf (by rw [hall, Bool.and_false])
    · cases c2 with
      | nil => simp at hrest
      | cons y t =>
        have hy : y = ':' := by
          rw [List.cons_append] at hrest
          exact (List.cons.injEq _ _ _ _ ▸ hrest).1.symm
        subst hy
        have hmm : ':' ∈ a := by
          rw [hc2]; exact List.mem_append_right pre (List.mem_cons_self _ _)
        have := forall_of_splitFirst_eq_none hna ':' hmm
        simp at this

theorem splitScheme_slash_block (a : Chars)
    (hna : splitFirst (fun c => c == ':') a = none) :
    splitScheme (a ++ ['/']) = ([], a ++ ['/']) := by
  apply splitScheme_of_none
  apply splitFirst_eq_none_of_forall
  intro c hc
  rcases List.mem_append.mp hc with hm | hm
  · exact forall_of_splitFirst_eq_none hna c hm
  · have : c = '/' := by simpa using hm
    subst this; decide

theorem netlocStage_not_slashes {l : Chars} (h : l.take 2 ≠ ['/', '/']) :
    netlocStage l = ([], l) := by
  unfold netlocStage
  rw [if_neg h]

theorem netlocStage_slashes (t : Chars) :
    netlocStage ('/' :: '/' :: t) =
      (t.takeWhile (fun c => !netlocDelim c), t.dropWhile (fun c => !netlocDelim c)) := by
  unfold netlocStage splitnetloc
  rw [if_pos (show List.take 2 ('/' :: '/' :: t) = ['/', '/'] from rfl)]
  rfl

theorem netlocStage_append_delim (r₂ sfx : Chars) (hne : sfx ≠ [])
    (hd : netlocDelim (sfx.headD ' ') = true)
    (h1 : ¬(r₂ = ['/'] ∧ sfx.headD ' ' = '/'))
    (h2 : sfx.take 2 ≠ ['/', '/']) :
    ∃ nl r₃, netlocStage r₂ = (nl, r₃) ∧ netlocStage (r₂ ++ sfx) = (nl, r₃ ++ sfx) ∧
      ∀ c ∈ r₃, c ∈ r₂ := by
  rcases r₂ with _ | ⟨c, _ | ⟨c₂, t⟩⟩
  · refine ⟨[], [], netlocStage_not_slashes (by decide), ?_, by simp⟩
    simpa using netlocStage_not_slashes h2
  · have hc2 : (c :: sfx).take 2 ≠ ['/', '/'] := by
      cases sfx with
      | nil => exact absurd rfl hne
      | cons y ys =>
        intro hEq
        obtain ⟨hc, hy⟩ : c = '/' ∧ y = '/' := by simpa using hEq
        exact h1 ⟨by rw [hc], by simpa using hy⟩
    refine ⟨[], [c], netlocStage_not_slashes (by simp), ?_, by simp⟩
    simpa using netlocStage_not_slashes hc2
  · by_cases hsl : (c :: c₂ :: t).take 2 = ['/', '/']
    · obtain ⟨rfl, rfl⟩ : c = '/' ∧ c₂ = '/' := by simpa using hsl
      by_cases hstop : t.dropWhile (fun c => !netlocDelim c) = []
      · have hall : ∀ x ∈ t, (fun c => !netlocDelim c) x = true :=
          List.dropWhile_eq_nil_iff.mp hstop
        obtain ⟨h1s, h2s⟩ := takeWhile_dropWhile_append_all sfx hall
        have hsfh : (fun c => !netlocDelim c) (sfx.headD ' ') = false := by
          show (!netlocDelim (sfx.headD ' ')) = false
          rw [hd]
          rfl
        have htk : sfx.takeWhile (fun c => !netlocDelim c) = [] :=
          takeWhile_eq_nil_of_head (Or.inr hsfh)
        have hdw : sfx.dropWhile (fun c => !netlocDelim c) = sfx :=
          dropWhile_eq_self_of_head (Or.inr hsfh)
        have htt : t.takeWhile (fun c => !netlocDelim c) = t := by
          have h3 := List.takeWhile_append_dropWhile (fun c => !netlocDelim c) t
          rwa [hstop, List.append_nil] at h3
        refine ⟨t, [], ?_, ?_, by simp⟩
        · rw [netlocStage_slashes, htt, hstop]
        · show netlocStage ('/' :: '/' :: (t ++ sfx)) = (t, [] ++ sfx)
          rw [netlocStage_slashes, h1s, h2s, htk, hdw, List.append_nil, List.nil_append]
      · obtain ⟨h1s, h2s⟩ := takeWhile_dropWhile_append_stop sfx hstop
        refine ⟨t.takeWhile (fun c => !netlocDelim c), t.dropWhile (fun c => !netlocDelim c),
          netlocStage_slashes t, ?_, ?_⟩
        · show netlocStage ('/' :: '/' :: (t ++ sfx)) = _
          rw [netlocStage_slashes, h1s, h2s]
        · intro d hd2
          exact List.mem_cons_of_mem _ (List.mem_cons_of_mem _ (mem_of_mem_dropWhile hd2))
    · have hsl2 : ((c :: c₂ :: t) ++ sfx).take 2 ≠ ['/', '/'] := hsl
      exact ⟨[], c :: c₂ :: t, netlocStage_not_slashes hsl,
        by simpa using netlocStage_not_slashes hsl2, fun d hd2 => hd2⟩

theorem fragSplit_no_hash {l : Chars} (h : ∀ c ∈ l, (c == '#') = false) :
    fragSplit l = (l, []) := by
  unfold fragSplit
  rw [splitFirst_eq_none_of_forall h]

theorem fragSplit_append_hash (l f : Chars) (h : ∀ c ∈ l, (c == '#') = false) :
    fragSplit (l ++ '#' :: f) = (l, f) := by
  unfold fragSplit
  rw [splitFirst_append_sat (by decide) l f h]

theorem querySplit_no_q {l : Chars} (h : ∀ c ∈ l, (c == '?') = false) :
    querySplit l = (l, []) := by
  unfold querySplit
  rw [splitFirst_eq_none_of_forall h]

theorem querySplit_append_q (l q : Chars) (h : ∀ c ∈ l, (c == '?') = false) :
    querySplit (l ++ '?' :: q) = (l, q) := by
  unfold querySplit
  rw [splitFirst_append_sat (by decide) l q h]

theorem fragSplit_parts (l : Chars) :
    (∀ c ∈ (fragSplit l).1, c ∈ l ∧ (c == '#') = false) ∧
      (∀ c ∈ (fragSplit l).2, c ∈ l) ∧
      ((fragSplit l).1 = [] ∨ (fragSplit l).1.headD ' ' = l.headD ' ') := by
  unfold fragSplit
  cases hsf : splitFirst (fun c => c == '#') l with
  | none =>
    dsimp only
    exact ⟨fun c hc => ⟨hc, by simpa using forall_of_splitFirst_eq_none hsf c hc⟩,
      fun c hc => absurd hc (List.not_mem_nil c), Or.inr rfl⟩
  | some pr =>
    obtain ⟨x, y⟩ := pr
    dsimp only
    obtain ⟨hfa, c, hc, hsplit⟩ := splitFirst_eq_some hsf
    have hcc : c = '#' := by simpa using hc
    subst hcc
    subst hsplit
    refine ⟨fun d hd => ⟨List.mem_append_left _ hd, hfa d hd⟩,
      fun d hd => List.mem_append_right _ (List.mem_cons_of_mem _ hd), ?_⟩
    cases x with
    | nil => exact Or.inl rfl
    | cons a as => exact Or.inr rfl

theorem querySplit_parts (l : Chars) :
    (∀ c ∈ (querySplit l).1, c ∈ l ∧ (c == '?') = false) ∧
      (∀ c ∈ (querySplit l).2, c ∈ l) ∧
      ((querySplit l).1 = [] ∨ (querySplit l).1.headD ' ' = l.headD ' ') := by
  unfold querySplit
  cases hsf : splitFirst (fun c => c == '?') l with
  | none =>
    dsimp only
    exact ⟨fun c hc => ⟨hc, by simpa using forall_of_splitFirst_eq_none hsf c hc⟩,
      fun c hc => absurd hc (List.not_mem_nil c), Or.inr rfl⟩
  | some pr =>
    obtain ⟨x, y⟩ := pr
    dsimp only
    obtain ⟨hfa, c, hc, hsplit⟩ := splitFirst_eq_some hsf
    have hcc : c = '?' := by simpa using hc
    subst hcc
    subst hsplit
    refine ⟨fun d hd => ⟨List.mem_append_left _ hd, hfa d hd⟩,
      fun d hd => List.mem_append_right _ (List.mem_cons_of_mem _ hd), ?_⟩
    cases x with
    | nil => exact Or.inl rfl
    | cons a as => exact Or.inr rfl

theorem urlsplit_dest {r : Chars} {s : SplitResult} (h : urlsplit r = some s) :
    ((netlocStage (splitScheme (sanitize r)).2).1.contains '[' ||
      (netlocStage (splitScheme (sanitize r)).2).1.contains ']') = false ∧
    s.scheme = (splitScheme (sanitize r)).1 ∧
    s.netloc = (netlocStage (splitScheme (sanitize r)).2).1 ∧
    s.path = (querySplit (fragSplit (netlocStage (splitScheme (sanitize r)).2).2).1).1 ∧
    s.query = (querySplit (fragSplit (netlocStage (splitScheme (sanitize r)).2).2).1).2 ∧
    s.fragment = (fragSplit (netlocStage (splitScheme (sanitize r)).2).2).2 := by
  rw [urlsplit_stages] at h
  by_cases hg : ((netlocStage (splitScheme (sanitize r)).2).1.contains '[' ||
      (netlocStage (splitScheme (sanitize r)).2).1.contains ']') = true
  · rw [if_pos hg] at h; cases h
  · rw [if_neg hg] at h
    obtain rfl := (Option.some.inj h).symm
    exact ⟨Bool.eq_false_iff.mpr hg, rfl, rfl, rfl, rfl, rfl⟩

theorem urlsplit_mk (r : Chars)
    (hg : ((netlocStage (splitScheme (sanitize r)).2).1.contains '[' ||
      (netlocStage (splitScheme (sanitize r)).2).1.contains ']') = false) :
    urlsplit r =
      some { scheme := (splitScheme (sanitize r)).1,
             netloc := (netlocStage (splitScheme (sanitize r)).2).1,
             path := (querySplit (fragSplit (netlocStage (splitScheme (sanitize r)).2).2).1).1,
             query := (querySplit (fragSplit (netlocStage (splitScheme (sanitize r)).2).2).1).2,
             fragment := (fragSplit (netlocStage (splitScheme (sanitize r)).2).2).2 } := by
  rw [urlsplit_stages, if_neg (Bool.eq_false_iff.mp hg)]

theorem urlsplit_none_of_guard (r : Chars)
    (hg : ((netlocStage (splitScheme (sanitize r)).2).1.contains '[' ||
      (netlocStage (splitScheme (sanitize r)).2).1.contains ']') = true) :
    urlsplit r = none := by
  rw [urlsplit_stages, if_pos hg]

theorem urlparse_dest {r : Chars} {p : ParseResult} (h : urlparse r = some p) :
    ∃ s, urlsplit r = some s ∧ p.scheme = s.scheme ∧ p.netloc = s.netloc ∧
      p.query = s.query ∧ p.fragment = s.fragment ∧
      ((usesParams.contains s.scheme && s.path.contains ';') = true ∧
          p.path = (splitparams s.path).1 ∧ p.params = (splitparams s.path).2 ∨
        (usesParams.contains s.scheme && s.path.contains ';') = false ∧
          p.path = s.path ∧ p.params = []) := by
  unfold urlparse at h
  cases hu : urlsplit r with
  | none => rw [hu] at h; cases h
  | some s =>
    rw [hu] at h
    dsimp only [Option.map] at h
    have h2 := Option.some.inj h
    by_cases hc : (usesParams.contains s.scheme && s.path.contains ';') = true
    · rw [if_pos hc] at h2
      obtain rfl := h2.symm
      exact ⟨s, rfl, rfl, rfl, rfl, rfl, Or.inl ⟨hc, rfl, rfl⟩⟩
    · rw [if_neg hc] at h2
      obtain rfl := h2.symm
      exact ⟨s, rfl, rfl, rfl, rfl, rfl,
        Or.inr ⟨Bool.eq_false_iff.mpr hc, rfl, rfl⟩⟩

theorem urlparse_mk {r : Chars} {s : SplitResult} (h : urlsplit r = some s)
    (hc : (usesParams.contains s.scheme && s.path.contains ';') = false) :
    urlparse r = some { scheme := s.scheme, netloc := s.netloc, path := s.path,
                        params := [], query := s.query, fragment := s.fragment } := by
  unfold urlparse
  rw [h]
  dsimp only [Option.map]
  rw [if_neg (Bool.eq_false_iff.mp hc)]

theorem headD_mem {l : Chars} (h : l ≠ []) (d : Char) : l.headD d ∈ l := by
  cases l with
  | nil => exact absurd rfl h
  | cons x xs => exact List.mem_cons_self x xs

theorem splitScheme_snd_subset (l : Chars) : ∀ c ∈ (splitScheme l).2, c ∈ l := by
  cases hsf : splitFirst (fun c => c == ':') l with
  | none => rw [splitScheme_of_none hsf]; exact fun c hc => hc
  | some pr =>
    obtain ⟨pre, rest⟩ := pr
    obtain ⟨hfa, c, hc, hsplit⟩ := splitFirst_eq_some hsf
    by_cases hch : (!pre.isEmpty && (pre.headD ' ').isAlpha &&
        pre.all (fun c => schemeChars.contains c)) = true
    · rw [splitScheme_some_pos hsf hch]
      intro d hd
      rw [hsplit]
      exact List.mem_append_right _ (List.mem_cons_of_mem _ hd)
    · rw [splitScheme_some_neg hsf (Bool.eq_false_iff.mpr hch)]
      exact fun d hd => hd

theorem netlocStage_fst_spec (l : Chars) :
    ∀ c ∈ (netlocStage l).1, netlocDelim c = false ∧ c ∈ l := by
  unfold netlocStage
  by_cases hsl : l.take 2 = ['/', '/']
  · rw [if_pos hsl]
    intro c hc
    have hc2 : c ∈ (l.drop 2).takeWhile (fun c => !netlocDelim c) := hc
    constructor
    · have := List.mem_takeWhile_imp hc2
      simpa using this
    · exact List.drop_subset 2 l (mem_of_mem_takeWhile hc2)
  · rw [if_neg hsl]
    intro c hc
    cases hc

theorem netlocStage_snd_subset (l : Chars) : ∀ c ∈ (netlocStage l).2, c ∈ l := by
  unfold netlocStage
  by_cases hsl : l.take 2 = ['/', '/']
  · rw [if_pos hsl]
    intro c hc
    have hc2 : c ∈ (l.drop 2).dropWhile (fun c => !netlocDelim c) := hc
    exact List.drop_subset 2 l (mem_of_mem_dropWhile hc2)
  · rw [if_neg hsl]
    exact fun c hc => hc

theorem netlocStage_fst_ne_nil {l : Chars} (h : (netlocStage l).1 ≠ []) :
    (netlocStage l).2 = [] ∨ netlocDelim ((netlocStage l).2.headD ' ') = true := by
  unfold netlocStage at h ⊢
  by_cases hsl : l.take 2 = ['/', '/']
  · rw [if_pos hsl] at h ⊢
    by_cases hdw : (l.drop 2).dropWhile (fun c => !netlocDelim c) = []
    · exact Or.inl hdw
    · right
      have := headD_dropWhile_false (p := fun c => !netlocDelim c) ' ' hdw
      simpa using this
  · rw [if_neg hsl] at h
    exact absurd rfl h

theorem splitparams_parts (l : Chars) :
    (∀ c ∈ (splitparams l).1, c ∈ l) ∧ (∀ c ∈ (splitparams l).2, c ∈ l) ∧
      ((splitparams l).1 = [] ∨ (splitparams l).1.headD ' ' = l.headD ' ') := by
  unfold splitparams
  by_cases hsl : l.contains '/' = true
  · rw [if_pos hsl]
    cases hlast : splitLast (fun c => c == '/') l with
    | none =>
      dsimp only
      exact ⟨fun c hc => hc, fun c hc => absurd hc (List.not_mem_nil c), Or.inr rfl⟩
    | some ab =>
      obtain ⟨a, b⟩ := ab
      dsimp only
      obtain ⟨hfb, c, hc, hsplit⟩ := splitLast_eq_some hlast
      have hcc : c = '/' := by simpa using hc
      subst hcc
      cases hsf : splitFirst (fun c => c == ';') b with
      | none =>
        dsimp only
        exact ⟨fun c hc => hc, fun c hc => absurd hc (List.not_mem_nil c), Or.inr rfl⟩
      | some bc =>
        obtain ⟨b1, b2⟩ := bc
        dsimp only
        obtain ⟨hfa2, d, hd, hsplit2⟩ := splitFirst_eq_some hsf
        have hdd : d = ';' := by simpa using hd
        subst hdd
        subst hsplit
        refine ⟨?_, ?_, ?_⟩
        · intro x hx
          rw [hsplit2]
          rcases List.mem_append.mp hx with hxa | hxb
          · exact List.mem_append_left _ hxa
          · rcases List.mem_cons.mp hxb with rfl | hxb1
            · exact List.mem_append_right _ (List.mem_cons_self _ _)
            · exact List.mem_append_right _
                (List.mem_cons_of_mem _ (List.mem_append_left _ hxb1))
        · intro x hx
          rw [hsplit2]
          exact List.mem_append_right _ (List.mem_cons_of_mem _
            (List.mem_append_right _ (List.mem_cons_of_mem _ hx)))
        · cases a with
          | nil => exact Or.inr rfl
          | cons u us => exact Or.inr rfl
  · rw [if_neg hsl]
    cases hsf : splitFirst (fun c => c == ';') l with
    | none =>
      dsimp only
      exact ⟨fun c hc => hc, fun c hc => absurd hc (List.not_mem_nil c), Or.inr rfl⟩
    | some bc =>
      obtain ⟨b1, b2⟩ := bc
      dsimp only
      obtain ⟨hfa2, d, hd, hsplit2⟩ := splitFirst_eq_some hsf
      have hdd : d = ';' := by simpa using hd
      subst hdd
      subst hsplit2
      refine ⟨fun x hx => List.mem_append_left _ hx,
        fun x hx => List.mem_append_right _ (List.mem_cons_of_mem _ hx), ?_⟩
      cases b1 with
      | nil => exact Or.inl rfl
      | cons u us => exact Or.inr rfl

/-- A nonempty scheme produced by urlsplit is a valid lowercase scheme
whose characters are scheme characters. -/
theorem urlsplit_scheme_wf {r : Chars} {s : SplitResult} (h : urlsplit r = some s) :
    s.scheme = [] ∨
      (s.scheme ≠ [] ∧ (s.scheme.headD ' ').isAlpha = true ∧
        ∀ c ∈ s.scheme, schemeChars.contains c = true ∧ c.toLower = c ∧
          (c == ':') = false ∧ isUnsafeByte c = false ∧ isC0OrSpace c = false) := by
  obtain ⟨hg, hsch, _, _, _, _⟩ := urlsplit_dest h
  rw [hsch]
  cases hsf : splitFirst (fun c => c == ':') (sanitize r) with
  | none => rw [splitScheme_of_none hsf]; exact Or.inl rfl
  | some pr =>
    obtain ⟨pre, rest⟩ := pr
    by_cases hch : (!pre.isEmpty && (pre.headD ' ').isAlpha &&
        pre.all (fun c => schemeChars.contains c)) = true
    · rw [splitScheme_some_pos hsf hch]
      right
      simp only [Bool.and_eq_true] at hch
      have hprene : pre ≠ [] := by
        have := hch.1.1
        simp only [Bool.not_eq_true'] at this
        exact List.isEmpty_eq_false.mp this
      have hall : ∀ x ∈ pre, schemeChars.contains x = true := by
        intro x hx
        simpa using List.all_eq_true.mp hch.2 x hx
      refine ⟨by simpa using hprene, ?_, ?_⟩
      · rw [headD_map_toLower hprene ' ' ' ']
        obtain ⟨_, _, h3, _, _, _⟩ := schemeChar_props (hall _ (headD_mem hprene ' '))
        rw [h3]
        exact hch.1.2
      · intro c hc
        obtain ⟨x, hx, rfl⟩ := List.mem_map.mp hc
        obtain ⟨p1, p2, _, p4, p5, p6⟩ := schemeChar_props (hall x hx)
        exact ⟨p1, p2, p4, p5, p6⟩
    · rw [splitScheme_some_neg hsf (Bool.eq_false_iff.mpr hch)]
      exact Or.inl rfl

/-- Characters of the netloc produced by urlsplit: no delimiter, drawn
from the sanitized input. -/
theorem urlsplit_netloc_wf {r : Chars} {s : SplitResult} (h : urlsplit r = some s) :
    ∀ c ∈ s.netloc, netlocDelim c = false ∧ isUnsafeByte c = false := by
  obtain ⟨hg, _, hnl, _, _, _⟩ := urlsplit_dest h
  rw [hnl]
  intro c hc
  obtain ⟨hd, hmem⟩ := netlocStage_fst_spec _ c hc
  exact ⟨hd, sanitize_clean (splitScheme_snd_subset _ _ hmem)⟩

/-- Characters of the path and query produced by urlsplit, and the
path-head property when the netloc is nonempty. -/
theorem urlsplit_path_wf {r : Chars} {s : SplitResult} (h : urlsplit r = some s) :
    (∀ c ∈ s.path, (c == '#') = false ∧ (c == '?') = false ∧ isUnsafeByte c = false) ∧
      (∀ c ∈ s.query, (c == '#') = false ∧ isUnsafeByte c = false) ∧
      (s.netloc ≠ [] → s.path = [] ∨ s.path.headD ' ' = '/') := by
  obtain ⟨hg, hsch, hnl, hpa, hq, hf⟩ := urlsplit_dest h
  have hr₃ : ∀ c ∈ (netlocStage (splitScheme (sanitize r)).2).2, c ∈ sanitize r :=
    fun c hc => splitScheme_snd_subset _ _ (netlocStage_snd_subset _ _ hc)
  obtain ⟨hf1, hf2, hf3⟩ := fragSplit_parts (netlocStage (splitScheme (sanitize r)).2).2
  obtain ⟨hq1, hq2, hq3⟩ := querySplit_parts
    (fragSplit (netlocStage (splitScheme (sanitize r)).2).2).1
  have hpath : ∀ c ∈ s.path, (c == '#') = false ∧ (c == '?') = false ∧
      isUnsafeByte c = false := by
    intro c hc
    rw [hpa] at hc
    obtain ⟨hcin, hcq⟩ := hq1 c hc
    obtain ⟨hcin2, hch⟩ := hf1 c hcin
    exact ⟨hch, hcq, sanitize_clean (hr₃ c hcin2)⟩
  refine ⟨hpath, ?_, ?_⟩
  · intro c hc
    rw [hq] at hc
    obtain ⟨hcin2, hch⟩ := hf1 c (hq2 c hc)
    exact ⟨hch, sanitize_clean (hr₃ c hcin2)⟩
  · intro hnne
    rw [hnl] at hnne
    by_cases hpe : s.path = []
    · exact Or.inl hpe
    · right
      have hufne : (fragSplit (netlocStage (splitScheme (sanitize r)).2).2).1 ≠ [] := by
        intro hz
        have : s.path.headD ' ' ∈ s.path := headD_mem hpe ' '
        rw [hpa] at this
        exact absurd (hz ▸ (hq1 _ this).1) (List.not_mem_nil _)
      have hr₃ne : (netlocStage (splitScheme (sanitize r)).2).2 ≠ [] := by
        intro hz
        have := headD_mem hufne ' '
        exact absurd (hz ▸ (hf1 _ this).1) (List.not_mem_nil _)
      rcases netlocStage_fst_ne_nil hnne with h0 | hdel
      · exact absurd h0 hr₃ne
      · have hchain1 : s.path.headD ' ' =
            (fragSplit (netlocStage (splitScheme (sanitize r)).2).2).1.headD ' ' := by
          rcases hq3 with hz | he
          · rw [hpa] at hpe; exact absurd hz hpe
          · rw [hpa]; exact he
        have hchain2 : (fragSplit (netlocStage (splitScheme (sanitize r)).2).2).1.headD ' ' =
            (netlocStage (splitScheme (sanitize r)).2).2.headD ' ' := by
          rcases hf3 with hz | he
          · exact absurd hz hufne
          · exact he
        have hdel2 : netlocDelim (s.path.headD ' ') = true := by
          rw [hchain1, hchain2]; exact hdel
        obtain ⟨hnh, hnq, _⟩ := hpath _ (headD_mem hpe ' ')
        unfold netlocDelim at hdel2
        rw [hnq, hnh, Bool.or_false, Bool.or_false] at hdel2
        simpa using hdel2

/-- Shape of urlunparse on a params-free, fragment-free result with a
nonempty netloc and an absolute (or empty) path. -/
theorem urlunparse_shape (sch nl pth q : Chars) (hnl : nl ≠ [])
    (hph : pth = [] ∨ pth.headD ' ' = '/') :
    urlunparse { scheme := sch, netloc := nl, path := pth, params := [], query := q,
                 fragment := [] } =
      (if sch = [] then ([] : Chars) else sch ++ [':']) ++
        '/' :: '/' :: ((nl ++ pth) ++ (if q = [] then ([] : Chars) else '?' :: q)) := by
  have hnb : (!nl.isEmpty) = true := by
    cases nl with
    | nil => exact absurd rfl hnl
    | cons x xs => rfl
  have hu : (!pth.isEmpty && decide (pth.headD '/' ≠ '/')) = false := by
    rcases hph with rfl | hh
    · rfl
    · cases pth with
      | nil => rfl
      | cons x xs =>
        have hx : x = '/' := hh
        subst hx
        simp
  simp only [urlunparse, urlunsplit, List.isEmpty_nil, Bool.not_true, Bool.false_eq_true,
    if_false]
  rw [hnb, hu]
  simp only [Bool.true_or, if_true, Bool.false_eq_true, if_false]
  by_cases hs : sch = []
  · subst hs
    by_cases hq : q = []
    · subst hq; simp
    · have hqb : (!q.isEmpty) = true := by
        cases q with
        | nil => exact absurd rfl hq
        | cons y ys => rfl
      rw [hqb]
      simp [hq]
  · have hsb : (!sch.isEmpty) = true := by
      cases sch with
      | nil => exact absurd rfl hs
      | cons y ys => rfl
    rw [hsb]
    by_cases hq : q = []
    · subst hq; simp [hs]
    · have hqb : (!q.isEmpty) = true := by
        cases q with
        | nil => exact absurd rfl hq
        | cons y ys => rfl
      rw [hqb]
      simp [hs, hq]

theorem headD_append_left {l : Chars} (t : Chars) (h : l ≠ []) (d : Char) :
    (l ++ t).headD d = l.headD d := by
  cases l with
  | nil => exact absurd rfl h
  | cons x xs => rfl

theorem netlocStage_build (nl rest2 : Chars)
    (hnl : ∀ c ∈ nl, netlocDelim c = false)
    (hr : rest2 = [] ∨ netlocDelim (rest2.headD ' ') = true) :
    netlocStage ('/' :: '/' :: (nl ++ rest2)) = (nl, rest2) := by
  rw [netlocStage_slashes]
  obtain ⟨h1, h2⟩ := takeWhile_dropWhile_append_all (p := fun c => !netlocDelim c) rest2
    (fun x hx => by simp [hnl x hx])
  have hh : rest2 = [] ∨ (fun c => !netlocDelim c) (rest2.headD ' ') = false := by
    rcases hr with hz | hd
    · exact Or.inl hz
    · right
      show (!netlocDelim (rest2.headD ' ')) = false
      rw [hd]
      rfl
  rw [h1, h2, takeWhile_eq_nil_of_head hh, dropWhile_eq_self_of_head hh, List.append_nil]

theorem splitScheme_build (sch R : Chars) (hne : sch ≠ [])
    (halpha : (sch.headD ' ').isAlpha = true)
    (hall : ∀ c ∈ sch, schemeChars.contains c = true ∧ c.toLower = c ∧ (c == ':') = false) :
    splitScheme (sch ++ ':' :: R) = (sch, R) := by
  have hsf : splitFirst (fun c => c == ':') (sch ++ ':' :: R) = some (sch, R) :=
    splitFirst_append_sat (by decide) sch R (fun x hx => (hall x hx).2.2)
  have hch : (!sch.isEmpty && (sch.headD ' ').isAlpha &&
      sch.all (fun c => schemeChars.contains c)) = true := by
    have h1 : (!sch.isEmpty) = true := by
      cases sch with
      | nil => exact absurd rfl hne
      | cons y ys => rfl
    have h2 : sch.all (fun c => schemeChars.contains c) = true :=
      List.all_eq_true.mpr (fun x hx => by simpa using (hall x hx).1)
    rw [h1, halpha, h2]
    rfl
  rw [splitScheme_some_pos hsf hch,
    show sch.map Char.toLower = sch from
      (List.map_congr_left (fun a ha => (hall a ha).2.1)).trans (List.map_id sch)]

/-- Assembly: parse a string whose sanitation is the identity and whose
stages produce the given components. -/
theorem urlparse_build {v sch nl pth q rest2 : Chars}
    (hsanv : sanitize v = v)
    (hss : splitScheme v = (sch, '/' :: '/' :: (nl ++ rest2)))
    (hns : netlocStage ('/' :: '/' :: (nl ++ rest2)) = (nl, rest2))
    (hguardp : (nl.contains '[' || nl.contains ']') = false)
    (hfs : fragSplit rest2 = (rest2, []))
    (hqs : querySplit rest2 = (pth, q))
    (hcond : (usesParams.contains sch && pth.contains ';') = false) :
    urlparse v = some { scheme := sch, netloc := nl, path := pth, params := [],
                        query := q, fragment := [] } := by
  have hguardv : ((netlocStage (splitScheme (sanitize v)).2).1.contains '[' ||
      (netlocStage (splitScheme (sanitize v)).2).1.contains ']') = false := by
    rw [hsanv, hss]
    dsimp only
    rw [hns]
    exact hguardp
  have hmk := urlsplit_mk v hguardv
  rw [hsanv, hss] at hmk
  dsimp only at hmk
  rw [hns] at hmk
  dsimp only at hmk
  rw [hfs] at hmk
  dsimp only at hmk
  rw [hqs] at hmk
  dsimp only at hmk
  have hfin := urlparse_mk hmk (by dsimp only; exact hcond)
  dsimp only at hfin
  exact hfin

/-- Re-parsing an unparsed result is the identity, for a parse with a
nonempty netloc, no params and a clean absolute replacement path. -/
theorem urlparse_roundtrip {r : Chars} {p : ParseResult} (h : urlparse r = some p)
    (hn : p.netloc ≠ []) (pth : Chars)
    (hph : pth = [] ∨ pth.headD ' ' = '/')
    (hpc : ∀ c ∈ pth, (c == '#') = false ∧ (c == '?') = false ∧ (c == ';') = false ∧
      isUnsafeByte c = false) :
    urlparse (urlunparse { scheme := p.scheme, netloc := p.netloc, path := pth,
                           params := [], query := p.query, fragment := [] }) =
      some { scheme := p.scheme, netloc := p.netloc, path := pth,
             params := [], query := p.query, fragment := [] } := by
  obtain ⟨s, hu, hsc, hnl, hqe, _, _⟩ := urlparse_dest h
  obtain ⟨hguard, hsdef, hnldef, _, _, _⟩ := urlsplit_dest hu
  have hschwf := urlsplit_scheme_wf hu
  have hnlwf := urlsplit_netloc_wf hu
  obtain ⟨hpwf, hqwf, _⟩ := urlsplit_path_wf hu
  have hnlp : ∀ c ∈ p.netloc, netlocDelim c = false ∧ isUnsafeByte c = false :=
    fun c hc => hnlwf c (hnl ▸ hc)
  have hqp : ∀ c ∈ p.query, (c == '#') = false ∧ isUnsafeByte c = false :=
    fun c hc => hqwf c (hqe ▸ hc)
  have hguardp : (p.netloc.contains '[' || p.netloc.contains ']') = false := by
    rw [hnl, hnldef]
    exact hguard
  have hq1 : ∀ c ∈ (if p.query = [] then ([] : Chars) else '?' :: p.query),
      (c == '#') = false ∧ isUnsafeByte c = false := by
    intro c hc
    by_cases hq0 : p.query = []
    · rw [if_pos hq0] at hc; cases hc
    · rw [if_neg hq0] at hc
      rcases List.mem_cons.mp hc with rfl | hcq
      · exact ⟨by decide, by decide⟩
      · exact hqp c hcq
  have hq2 : (if p.query = [] then ([] : Chars) else '?' :: p.query) = [] ∨
      netlocDelim ((if p.query = [] then ([] : Chars) else '?' :: p.query).headD ' ') =
        true := by
    by_cases hq0 : p.query = []
    · left; rw [if_pos hq0]
    · right; rw [if_neg hq0]; rfl
  have hrest2head :
      pth ++ (if p.query = [] then ([] : Chars) else '?' :: p.query) = [] ∨
      netlocDelim ((pth ++ (if p.query = [] then ([] : Chars) else
        '?' :: p.query)).headD ' ') = true := by
    by_cases hp0 : pth = []
    · rw [hp0, List.nil_append]
      exact hq2
    · right
      rw [headD_append_left _ hp0 ' ']
      rcases hph with h0 | hh
      · exact absurd h0 hp0
      · rw [hh]; decide
  have hrest2_nohash : ∀ c ∈ pth ++ (if p.query = [] then ([] : Chars) else
      '?' :: p.query), (c == '#') = false := by
    intro c hc
    rcases List.mem_append.mp hc with hm | hm
    · exact (hpc c hm).1
    · exact (hq1 c hm).1
  have hrest2_clean : ∀ c ∈ pth ++ (if p.query = [] then ([] : Chars) else
      '?' :: p.query), isUnsafeByte c = false := by
    intro c hc
    rcases List.mem_append.mp hc with hm | hm
    · exact (hpc c hm).2.2.2
    · exact (hq1 c hm).2
  have hfs : fragSplit (pth ++ (if p.query = [] then ([] : Chars) else
      '?' :: p.query)) = (pth ++ (if p.query = [] then ([] : Chars) else
      '?' :: p.query), []) := fragSplit_no_hash hrest2_nohash
  have hqs : querySplit (pth ++ (if p.query = [] then ([] : Chars) else
      '?' :: p.query)) = (pth, p.query) := by
    by_cases hq0 : p.query = []
    · rw [if_pos hq0, List.append_nil, hq0]
      exact querySplit_no_q (fun c hc => (hpc c hc).2.1)
    · rw [if_neg hq0]
      exact querySplit_append_q pth p.query (fun c hc => (hpc c hc).2.1)
  have hns : netlocStage ('/' :: '/' :: (p.netloc ++ (pth ++
      (if p.query = [] then ([] : Chars) else '?' :: p.query)))) =
      (p.netloc, pth ++ (if p.query = [] then ([] : Chars) else '?' :: p.query)) :=
    netlocStage_build _ _ (fun c hc => (hnlp c hc).1) hrest2head
  have hcond : (usesParams.contains p.scheme && pth.contains ';') = false := by
    rw [contains_eq_false_of_forall (fun x hx => (hpc x hx).2.2.1), Bool.and_false]
  rw [urlunparse_shape p.scheme p.netloc pth p.query hn hph]
  by_cases hs0 : p.scheme = []
  · rw [if_pos hs0, List.nil_append, List.append_assoc, hs0]
    have hsanv : sanitize ('/' :: '/' :: (p.netloc ++ (pth ++
        (if p.query = [] then ([] : Chars) else '?' :: p.query)))) =
        '/' :: '/' :: (p.netloc ++ (pth ++
        (if p.query = [] then ([] : Chars) else '?' :: p.query))) := by
      apply sanitize_eq_self
      · intro c hc
        rcases List.mem_cons.mp hc with rfl | hc2
        · decide
        rcases List.mem_cons.mp hc2 with rfl | hc3
        · decide
        rcases List.mem_append.mp hc3 with hm | hm
        · exact (hnlp c hm).2
        · exact hrest2_clean c hm
      · right; rfl
    have hss : splitScheme ('/' :: '/' :: (p.netloc ++ (pth ++
        (if p.query = [] then ([] : Chars) else '?' :: p.query)))) =
        ([], '/' :: '/' :: (p.netloc ++ (pth ++
        (if p.query = [] then ([] : Chars) else '?' :: p.query)))) :=
      splitScheme_headD_not_alpha rfl
    exact urlparse_build hsanv hss hns hguardp hfs hqs
      (by rw [contains_eq_false_of_forall (fun x hx => (hpc x hx).2.2.1), Bool.and_false])
  · rcases hschwf with hz | ⟨hsne, halpha, hmem⟩
    · rw [hsc] at hs0
      exact absurd hz hs0
    · have hsne2 : p.scheme ≠ [] := by rw [hsc]; exact hsne
      have halpha2 : (p.scheme.headD ' ').isAlpha = true := by rw [hsc]; exact halpha
      have hmem2 : ∀ c ∈ p.scheme, schemeChars.contains c = true ∧ c.toLower = c ∧
          (c == ':') = false ∧ isUnsafeByte c = false ∧ isC0OrSpace c = false := by
        intro c hc
        exact hmem c (hsc ▸ hc)
      rw [if_neg hs0, List.append_assoc, List.append_assoc]
      have hsanv : sanitize (p.scheme ++ ':' :: ('/' :: '/' :: (p.netloc ++ (pth ++
          (if p.query = [] then ([] : Chars) else '?' :: p.query))))) =
          p.scheme ++ ':' :: ('/' :: '/' :: (p.netloc ++ (pth ++
          (if p.query = [] then ([] : Chars) else '?' :: p.query)))) := by
        apply sanitize_eq_self
        · intro c hc
          rcases List.mem_append.mp hc with hm | hm
          · exact (hmem2 c hm).2.2.2.1
          rcases List.mem_cons.mp hm with rfl | hm2
          · decide
          rcases List.mem_cons.mp hm2 with rfl | hm3
          · decide
          rcases List.mem_cons.mp hm3 with rfl | hm4
          · decide
          rcases List.mem_append.mp hm4 with hm5 | hm5
          · exact (hnlp c hm5).2
          · exact hrest2_clean c hm5
        · right
          rw [headD_append_left _ hsne2 ' ']
          exact (hmem2 _ (headD_mem hsne2 ' ')).2.2.2.2
      have hss : splitScheme (p.scheme ++ ':' :: ('/' :: '/' :: (p.netloc ++ (pth ++
          (if p.query = [] then ([] : Chars) else '?' :: p.query))))) =
          (p.scheme, '/' :: '/' :: (p.netloc ++ (pth ++
          (if p.query = [] then ([] : Chars) else '?' :: p.query)))) :=
        splitScheme_build _ _ hsne2 halpha2
          (fun c hc => ⟨(hmem2 c hc).1, (hmem2 c hc).2.1, (hmem2 c hc).2.2.1⟩)
      exact urlparse_build hsanv hss hns hguardp hfs hqs hcond

theorem rstripSlashes_pref (l : Chars) : rstripSlashes l <+: l := by
  unfold rstripSlashes
  have h1 : (l.reverse.dropWhile (fun c => c == '/')) <:+ l.reverse :=
    List.dropWhile_suffix _
  have h2 := List.reverse_prefix.mpr h1
  rwa [List.reverse_reverse] at h2

theorem headD_of_pref {l₁ l₂ : Chars} (h : l₁ <+: l₂) (hne : l₁ ≠ []) (d : Char) :
    l₁.headD d = l₂.headD d := by
  obtain ⟨t, rfl⟩ := h
  exact (headD_append_left t hne d).symm

theorem rstripSlashes_no_trailing (l : Chars) :
    rstripSlashes l = [] ∨ (rstripSlashes l).getLastD ' ' ≠ '/' := by
  unfold rstripSlashes
  by_cases hdw : l.reverse.dropWhile (fun c => c == '/') = []
  · left; rw [hdw]; rfl
  · right
    have hhead := headD_dropWhile_false (p := fun c => c == '/') ' ' hdw
    rw [List.getLastD_eq_getLast?, List.getLast?_reverse, ← List.headD_eq_head?]
    intro hc
    rw [hc] at hhead
    simp at hhead

theorem rstripSlashes_eq_self {l : Chars} (h : l = [] ∨ l.getLastD ' ' ≠ '/') :
    rstripSlashes l = l := by
  unfold rstripSlashes
  rcases h with rfl | hl
  · rfl
  · have hds : l.reverse.dropWhile (fun c => c == '/') = l.reverse := by
      apply dropWhile_eq_self_of_head
      cases hr : l.reverse with
      | nil => exact Or.inl rfl
      | cons x xs =>
        right
        have hswap : l.reverse.headD ' ' = l.getLastD ' ' := by
          rw [List.headD_eq_head?, List.getLastD_eq_getLast?, List.head?_reverse]
        rw [hr] at hswap
        have hx : x = l.getLastD ' ' := by simpa using hswap
        show (x == '/') = false
        rw [hx]
        exact beq_eq_false_iff_ne.mpr hl
    rw [hds, List.reverse_reverse]

theorem normPath_eq_self {l : Chars} (h : l = [] ∨ l.getLastD ' ' ≠ '/') :
    normPath l = l := by
  unfold normPath
  rcases h with rfl | hl
  · simp
  · have hlast : (l.getLastD ' ' == '/') = false := by simpa using hl
    rw [if_neg (by rw [Bool.and_eq_true]; rintro ⟨ha, _⟩; rw [hlast] at ha; cases ha)]

theorem normPath_pref (pth : Chars) : normPath pth <+: pth := by
  unfold normPath
  split
  · exact rstripSlashes_pref pth
  · exact List.prefix_refl pth

theorem normPath_idem (pth : Chars) : normPath (normPath pth) = normPath pth := by
  by_cases hc : (pth.getLastD ' ' == '/') = true ∧ pth ≠ ['/']
  · have h1 : normPath pth = rstripSlashes pth := by
      unfold normPath
      rw [if_pos (by rw [Bool.and_eq_true]; exact ⟨hc.1, by simpa using hc.2⟩)]
    rw [h1]
    exact normPath_eq_self (rstripSlashes_no_trailing pth)
  · have h1 : normPath pth = pth := by
      unfold normPath
      rw [if_neg (by simp only [Bool.and_eq_true, decide_eq_true_eq]; exact hc)]
    rw [h1, h1]

theorem rstripSlashes_append_slash (l : Chars) :
    rstripSlashes (l ++ ['/']) = rstripSlashes l := by
  unfold rstripSlashes
  rw [List.reverse_append,
    show (['/'] : Chars).reverse ++ l.reverse = '/' :: l.reverse from rfl,
    List.dropWhile_cons, if_pos (show ('/' == '/') = true from rfl)]

theorem normPath_append_slash {pth : Chars} (h0 : pth ≠ []) (h1 : pth ≠ ['/']) :
    normPath (pth ++ ['/']) = normPath pth := by
  have hLast : (pth ++ ['/']).getLastD ' ' = '/' := List.getLastD_concat _ _ _
  have hne : pth ++ ['/'] ≠ ['/'] := by
    intro hEq
    have hlen := congrArg List.length hEq
    simp at hlen
    exact h0 hlen
  have hl : normPath (pth ++ ['/']) = rstripSlashes (pth ++ ['/']) := by
    unfold normPath
    rw [if_pos (by rw [Bool.and_eq_true]
                   exact ⟨by rw [hLast]; rfl, by simpa using hne⟩)]
  rw [hl, rstripSlashes_append_slash]
  by_cases hc : (pth.getLastD ' ' == '/') = true ∧ pth ≠ ['/']
  · unfold normPath
    rw [if_pos (by rw [Bool.and_eq_true]; exact ⟨hc.1, by simpa using hc.2⟩)]
  · have hlast2 : (pth.getLastD ' ' == '/') = false := by
      by_cases hx : (pth.getLastD ' ' == '/') = true
      · exact absurd ⟨hx, h1⟩ hc
      · exact Bool.eq_false_iff.mpr hx
    rw [rstripSlashes_eq_self (Or.inr (by simpa using hlast2))]
    unfold normPath
    rw [if_neg (by rw [Bool.and_eq_true]; rintro ⟨ha, _⟩; rw [hlast2] at ha; cases ha)]

/-- Idempotence core: on a parse with nonempty authority, no params and a
semicolon-free path, normalize_url reaches a fixpoint in one step. -/
theorem normalize_url_fixpoint {r : Chars} {p : ParseResult} (h : urlparse r = some p)
    (hn : p.netloc ≠ []) (hparams : p.params = [])
    (hsemi : ∀ c ∈ p.path, (c == ';') = false) :
    ∃ v, normalize_url r = some v ∧ normalize_url v = some v := by
  obtain ⟨s, hu, hsc, hnl, hqe, hfe, hbr⟩ := urlparse_dest h
  obtain ⟨hpwf, hqwf, hhead⟩ := urlsplit_path_wf hu
  have hpp : (∀ c ∈ p.path, c ∈ s.path) ∧
      (p.path = [] ∨ p.path.headD ' ' = s.path.headD ' ') := by
    rcases hbr with ⟨hc, hpa, hpr⟩ | ⟨hc, hpa, hpr⟩
    · obtain ⟨h1, h2, h3⟩ := splitparams_parts s.path
      rw [hpa]
      exact ⟨h1, h3⟩
    · rw [hpa]
      exact ⟨fun c hc => hc, Or.inr rfl⟩
  have hppath : ∀ c ∈ p.path, (c == '#') = false ∧ (c == '?') = false ∧
      isUnsafeByte c = false := fun c hc => hpwf c (hpp.1 c hc)
  have hphead : p.path = [] ∨ p.path.headD ' ' = '/' := by
    rcases hpp.2 with h0 | heq
    · exact Or.inl h0
    · by_cases hp0 : p.path = []
      · exact Or.inl hp0
      · right
        rw [heq]
        have hsne : s.path ≠ [] := by
          intro hz
          exact absurd (hz ▸ hpp.1 _ (headD_mem hp0 ' ')) (List.not_mem_nil _)
        rcases hhead (by rw [← hnl]; exact hn) with h0 | hh
        · exact absurd h0 hsne
        · exact hh
  have hnp_pref := normPath_pref p.path
  have hnormfacts : ∀ c ∈ normPath p.path, (c == '#') = false ∧ (c == '?') = false ∧
      (c == ';') = false ∧ isUnsafeByte c = false := by
    intro c hc
    have hm := hnp_pref.subset hc
    obtain ⟨h1, h2, h3⟩ := hppath c hm
    exact ⟨h1, h2, hsemi c hm, h3⟩
  have hnormhead : normPath p.path = [] ∨ (normPath p.path).headD ' ' = '/' := by
    by_cases hz : normPath p.path = []
    · exact Or.inl hz
    · right
      rw [headD_of_pref hnp_pref hz ' ']
      rcases hphead with h0 | hh
      · rw [h0] at hz
        exact absurd (normPath_eq_self (Or.inl rfl)) hz
      · exact hh
  have hn1 : normalize_url r = some (urlunparse
      { scheme := p.scheme, netloc := p.netloc, path := normPath p.path,
        params := p.params, query := p.query, fragment := [] }) := by
    unfold normalize_url
    rw [h]
    rfl
  rw [hparams] at hn1
  have hrt := urlparse_roundtrip h hn (normPath p.path) hnormhead hnormfacts
  refine ⟨_, hn1, ?_⟩
  unfold normalize_url
  rw [hrt]
  dsimp only [Option.map]
  rw [normPath_idem]

/-- Assembly of urlsplit from stage results. -/
theorem urlsplit_stages_eq {v w sch r2 nl r3 uf1 pth q frag : Chars}
    (hsan : sanitize v = w)
    (hss : splitScheme w = (sch, r2))
    (hns : netlocStage r2 = (nl, r3))
    (hguard : (nl.contains '[' || nl.contains ']') = false)
    (hfs : fragSplit r3 = (uf1, frag))
    (hqs : querySplit uf1 = (pth, q)) :
    urlsplit v = some { scheme := sch, netloc := nl, path := pth, query := q,
                        fragment := frag } := by
  have hguardv : ((netlocStage (splitScheme (sanitize v)).2).1.contains '[' ||
      (netlocStage (splitScheme (sanitize v)).2).1.contains ']') = false := by
    rw [hsan, hss]
    dsimp only
    rw [hns]
    exact hguard
  have hmk := urlsplit_mk v hguardv
  rw [hsan, hss] at hmk
  dsimp only at hmk
  rw [hns] at hmk
  dsimp only at hmk
  rw [hfs] at hmk
  dsimp only at hmk
  rw [hqs] at hmk
  dsimp only at hmk
  exact hmk

/-- Fragment insensitivity of normalize_url: appending a fragment to a
hash-free raw URL does not change the normalization. -/
theorem normalize_url_fragment (r f : Chars) (hh : ∀ c ∈ r, (c == '#') = false) :
    normalize_url (r ++ '#' :: f) = normalize_url r := by
  by_cases hC0 : r.dropWhile isC0OrSpace = []
  · have hsanb : sanitize (r ++ '#' :: f) =
        '#' :: f.filter (fun c => !isUnsafeByte c) :=
      sanitize_append_of_nil _ hC0 (Or.inr rfl)
    have hsana : sanitize r = [] := by
      unfold sanitize
      rw [hC0]
      rfl
    have htake : ('#' :: f.filter (fun c => !isUnsafeByte c)).take 2 ≠ ['/', '/'] := by
      intro hEq
      rw [show ('#' :: f.filter (fun c => !isUnsafeByte c)).take 2 =
        '#' :: (f.filter (fun c => !isUnsafeByte c)).take 1 from rfl] at hEq
      exact absurd ((List.cons.injEq _ _ _ _).mp hEq).1 (by decide)
    have hub := urlsplit_stages_eq hsanb (splitScheme_headD_not_alpha rfl)
      (netlocStage_not_slashes htake) rfl rfl rfl
    have hua := urlsplit_stages_eq hsana rfl rfl rfl rfl rfl
    unfold normalize_url urlparse
    rw [hua, hub]
    rfl
  · obtain ⟨sch, r₂, hssa, hssb, hr₂sub⟩ :=
      splitScheme_append_rel (sanitize r) ('#' :: f.filter (fun c => !isUnsafeByte c))
        (fun hnone => splitScheme_hash_block (sanitize r)
          (f.filter (fun c => !isUnsafeByte c)) hnone)
    have hna : ∀ c ∈ sanitize r, (c == '#') = false := fun c hc => hh c (mem_sanitize hc)
    have hr₂hash : ∀ c ∈ r₂, (c == '#') = false := fun c hc => hna c (hr₂sub c hc)
    obtain ⟨nl, r₃, hnsa, hnsb, hr₃sub⟩ :=
      netlocStage_append_delim r₂ ('#' :: f.filter (fun c => !isUnsafeByte c))
        (by simp) rfl
        (by rintro ⟨hx, hy⟩; simp at hy)
        (by
          intro hEq
          rw [show ('#' :: f.filter (fun c => !isUnsafeByte c)).take 2 =
            '#' :: (f.filter (fun c => !isUnsafeByte c)).take 1 from rfl] at hEq
          exact absurd ((List.cons.injEq _ _ _ _).mp hEq).1 (by decide))
    have hr₃hash : ∀ c ∈ r₃, (c == '#') = false := fun c hc => hr₂hash c (hr₃sub c hc)
    have hsanb : sanitize (r ++ '#' :: f) =
        sanitize r ++ '#' :: f.filter (fun c => !isUnsafeByte c) := by
      rw [sanitize_append_of_stop _ hC0]
      rfl
    obtain ⟨pth, q, hqs⟩ : ∃ pth q, querySplit r₃ = (pth, q) := ⟨_, _, rfl⟩
    by_cases hguard : (nl.contains '[' || nl.contains ']') = true
    · have h1 : urlsplit r = none := urlsplit_none_of_guard r (by
        rw [hssa]
        dsimp only
        rw [hnsa]
        exact hguard)
      have h2 : urlsplit (r ++ '#' :: f) = none := urlsplit_none_of_guard _ (by
        rw [hsanb, hssb]
        dsimp only
        rw [hnsb]
        exact hguard)
      unfold normalize_url urlparse
      rw [h1, h2]
    · have hguard2 : (nl.contains '[' || nl.contains ']') = false :=
        Bool.eq_false_iff.mpr hguard
      have hua := urlsplit_stages_eq rfl hssa hnsa hguard2 (fragSplit_no_hash hr₃hash) hqs
      have hub := urlsplit_stages_eq hsanb hssb hnsb hguard2
        (fragSplit_append_hash r₃ (f.filter (fun c => !isUnsafeByte c)) hr₃hash) hqs
      unfold normalize_url urlparse
      rw [hua, hub]
      dsimp only [Option.map]
      by_cases hcnd : (usesParams.contains sch && pth.contains ';') = true
      · rw [if_pos hcnd, if_pos hcnd]
      · rw [if_neg hcnd, if_neg hcnd]

/-- Trailing-slash insensitivity of normalize_url on clean raw URLs whose
parsed path is neither empty nor the root. -/
theorem normalize_url_trailing_slash {r : Chars} {p : ParseResult}
    (h : urlparse r = some p)
    (hcl : ∀ c ∈ r, (c == '#') = false ∧ (c == '?') = false ∧ (c == ';') = false)
    (hp0 : p.path ≠ []) (hp1 : p.path ≠ ['/']) :
    normalize_url (r ++ ['/']) = normalize_url r := by
  obtain ⟨s, hu, hsc, hnl, hqe, hfe, hbr⟩ := urlparse_dest h
  have hna : ∀ c ∈ sanitize r, (c == '#') = false ∧ (c == '?') = false ∧
      (c == ';') = false := fun c hc => hcl c (mem_sanitize hc)
  by_cases hC0 : r.dropWhile isC0OrSpace = []
  · exfalso
    have hsana : sanitize r = [] := by
      unfold sanitize
      rw [hC0]
      rfl
    have hua := urlsplit_stages_eq hsana rfl rfl rfl rfl rfl
    rw [hu] at hua
    obtain rfl := Option.some.inj hua
    rcases hbr with ⟨hc, _, _⟩ | ⟨_, hpa, _⟩
    · dsimp only at hc
      exact absurd hc (by decide)
    · dsimp only at hpa
      exact hp0 hpa
  · have hsanb : sanitize (r ++ ['/']) = sanitize r ++ ['/'] := by
      rw [sanitize_append_of_stop _ hC0]
      rfl
    obtain ⟨sch, r₂, hssa, hssb, hr₂sub⟩ := splitScheme_append_rel (sanitize r) ['/']
      (fun hnone => splitScheme_slash_block (sanitize r) hnone)
    by_cases hr₂sl : r₂ = ['/']
    · exfalso
      subst hr₂sl
      have hns : netlocStage ['/'] = ([], ['/']) := netlocStage_not_slashes (by decide)
      have hua := urlsplit_stages_eq rfl hssa hns rfl rfl rfl
      rw [hu] at hua
      obtain rfl := Option.some.inj hua
      rcases hbr with ⟨hc, _, _⟩ | ⟨_, hpa, _⟩
      · dsimp only at hc
        rw [show List.contains ['/'] ';' = false from rfl, Bool.and_false] at hc
        cases hc
      · dsimp only at hpa
        exact hp1 hpa
    · obtain ⟨nl, r₃, hnsa, hnsb, hr₃sub⟩ := netlocStage_append_delim r₂ ['/']
        (by simp) rfl (by rintro ⟨hx, _⟩; exact hr₂sl hx) (by decide)
      have hr₃cl : ∀ c ∈ r₃, (c == '#') = false ∧ (c == '?') = false ∧
          (c == ';') = false := fun c hc => hna c (hr₂sub c (hr₃sub c hc))
      have hr₃cl2 : ∀ c ∈ r₃ ++ ['/'], (c == '#') = false ∧ (c == '?') = false := by
        intro c hc
        rcases List.mem_append.mp hc with hm | hm
        · exact ⟨(hr₃cl c hm).1, (hr₃cl c hm).2.1⟩
        · have hcs : c = '/' := by simpa using hm
          subst hcs
          exact ⟨by decide, by decide⟩
      have hfsa : fragSplit r₃ = (r₃, []) :=
        fragSplit_no_hash (fun c hc => (hr₃cl c hc).1)
      have hfsb : fragSplit (r₃ ++ ['/']) = (r₃ ++ ['/'], []) :=
        fragSplit_no_hash (fun c hc => (hr₃cl2 c hc).1)
      have hqsa : querySplit r₃ = (r₃, []) :=
        querySplit_no_q (fun c hc => (hr₃cl c hc).2.1)
      have hqsb : querySplit (r₃ ++ ['/']) = (r₃ ++ ['/'], []) :=
        querySplit_no_q (fun c hc => (hr₃cl2 c hc).2)
      by_cases hguard : (nl.contains '[' || nl.contains ']') = true
      · exfalso
        have h1 : urlsplit r = none := urlsplit_none_of_guard r (by
          rw [hssa]
          dsimp only
          rw [hnsa]
          exact hguard)
        rw [hu] at h1
        cases h1
      · have hguard2 : (nl.contains '[' || nl.contains ']') = false :=
          Bool.eq_false_iff.mpr hguard
        have hua := urlsplit_stages_eq rfl hssa hnsa hguard2 hfsa hqsa
        have hub := urlsplit_stages_eq hsanb hssb hnsb hguard2 hfsb hqsb
        rw [hu] at hua
        obtain rfl := Option.some.inj hua
        have hsemi : List.contains r₃ ';' = false :=
          contains_eq_false_of_forall (fun x hx => (hr₃cl x hx).2.2)
        have hsemi2 : List.contains (r₃ ++ ['/']) ';' = false := by
          apply contains_eq_false_of_forall
          intro x hx
          rcases List.mem_append.mp hx with hm | hm
          · exact (hr₃cl x hm).2.2
          · have hcs : x = '/' := by simpa using hm
            subst hcs
            decide
        have hppath : p.path = r₃ := by
          rcases hbr with ⟨hc, _, _⟩ | ⟨_, hpa, _⟩
          · dsimp only at hc
            rw [hsemi, Bool.and_false] at hc
            cases hc
          · dsimp only at hpa
            exact hpa
        have hr₃ne : r₃ ≠ [] := by rw [← hppath]; exact hp0
        have hr₃nsl : r₃ ≠ ['/'] := by rw [← hppath]; exact hp1
        unfold normalize_url urlparse
        rw [hu, hub]
        dsimp only [Option.map]
        have hcnda : ¬((usesParams.contains sch && List.contains r₃ ';') = true) := by
          intro hx
          rw [hsemi, Bool.and_false] at hx
          cases hx
        have hcndb : ¬((usesParams.contains sch &&
            List.contains (r₃ ++ ['/']) ';') = true) := by
          intro hx
          rw [hsemi2, Bool.and_false] at hx
          cases hx
        rw [if_neg hcndb, if_neg hcnda]
        dsimp only
        rw [normPath_append_slash hr₃ne hr₃nsl]

/-- C8: counterexample.  normalize_url is not idempotent and not
trailing-slash-insensitive on all raw URLs: "http://h/a;/" normalizes to
"http://h/a;", which re-normalizes to the different value "http://h/a"
(the params split moves the semicolon segment out of the path, exposing a
new trailing slash to strip); "/////x" normalizes to "///x", which
re-normalizes to "/x" (an empty-netloc "//" prefix is re-absorbed on each
round); and "http://h/a/;x/" and "http://h/a/;x", which differ only by one
trailing slash on a non-root path, normalize to the distinct values
"http://h/a/;x" and "http://h/a;x". -/
theorem c8_counterexample :
    normalize_url ("http://h/a;/".toList) = some ("http://h/a;".toList) ∧
    normalize_url ("http://h/a;".toList) = some ("http://h/a".toList) ∧
    "http://h/a;".toList ≠ "http://h/a".toList ∧
    normalize_url ("/////x".toList) = some ("///x".toList) ∧
    normalize_url ("///x".toList) = some ("/x".toList) ∧
    "///x".toList ≠ "/x".toList ∧
    normalize_url ("http://h/a/;x/".toList) = some ("http://h/a/;x".toList) ∧
    normalize_url ("http://h/a/;x".toList) = some ("http://h/a;x".toList) ∧
    "http://h/a/;x".toList ≠ "http://h/a;x".toList := by
  decide

/-- C8 (amended): the normalization algebra of normalize_url
(infinite_scroll_crawler_links_butt.py), restricted as the counterexample
forces.  (1) Idempotence holds for every raw URL whose parse has a
nonempty authority and a semicolon-free path-and-params portion (no params
and no ';' in the path): one application of normalize_url reaches a
fixpoint.  (2) Fragment-insensitivity holds unconditionally on hash-free
raw URLs: appending '#' plus any fragment leaves the output unchanged.
(3) Trailing-slash-insensitivity holds for raw URLs free of '#', '?' and
';' whose parsed path is neither empty nor the root "/": appending one
trailing slash leaves the output unchanged. -/
theorem c8_normalize_amended :
    (∀ (r : Chars) (p : ParseResult), urlparse r = some p → p.netloc ≠ [] →
        p.params = [] → (∀ c ∈ p.path, (c == ';') = false) →
        ∃ v, normalize_url r = some v ∧ normalize_url v = some v) ∧
    (∀ r f : Chars, (∀ c ∈ r, (c == '#') = false) →
        normalize_url (r ++ '#' :: f) = normalize_url r) ∧
    (∀ (r : Chars) (p : ParseResult), urlparse r = some p →
        (∀ c ∈ r, (c == '#') = false ∧ (c == '?') = false ∧ (c == ';') = false) →
        p.path ≠ [] → p.path ≠ ['/'] →
        normalize_url (r ++ ['/']) = normalize_url r) :=
  ⟨fun _r _p h hn hpar hsemi => normalize_url_fixpoint h hn hpar hsemi,
   fun r f hh => normalize_url_fragment r f hh,
   fun _r _p h hcl hp0 hp1 => normalize_url_trailing_slash h hcl hp0 hp1⟩

/-- Witness for c8_normalize_amended at the concrete URL "http://h/p". -/
theorem c8_normalize_amended_witness :
    (∃ v, normalize_url ("http://h/p".toList) = some v ∧ normalize_url v = some v) ∧
    normalize_url ("http://h/p".toList ++ '#' :: "f".toList) =
      normalize_url ("http://h/p".toList) ∧
    normalize_url ("http://h/p".toList ++ ['/']) = normalize_url ("http://h/p".toList) :=
  ⟨c8_normalize_amended.1 ("http://h/p".toList)
      { scheme := "http".toList, netloc := "h".toList, path := "/p".toList,
        params := [], query := [], fragment := [] }
      (by decide) (by decide) rfl (by decide),
   c8_normalize_amended.2.1 ("http://h/p".toList) ("f".toList) (by decide),
   c8_normalize_amended.2.2 ("http://h/p".toList)
      { scheme := "http".toList, netloc := "h".toList, path := "/p".toList,
        params := [], query := [], fragment := [] }
      (by decide) (by decide) (by decide) (by decide)⟩
